import Mathlib

/-!
Verification of the vaultx CLI secret-replication and provisioning engine.

This file shallowly embeds the Go code of the repository razahuss02/vaultx:
the mount resolver (findMountForSecret), the secret-engine listing
(GetSecretEngines), the protocol-version detector (GetSourceMountVersion),
the recursive namespace traverser (ListSecrets) and the two batch pipelines
(CopySecrets, CreateSecrets).  Machine-level Go behaviour (byte-based string
lengths, the semantics of the standard library functions strings.HasPrefix,
strings.TrimPrefix, strings.TrimSuffix, path.Join/path.Clean, map indexing
with zero values, type-assertion panics and nil-pointer dereferences) is
modelled explicitly.  The remote Vault server is modelled as explicit data
(a listing tree, read/write functions) supplied as input to the pipelines.
-/

namespace Vaultx

/-! ## Go string primitives

Go strings are byte strings; we model them as Lean strings and model the
byte length of a string explicitly (UTF-8 width of each character).  The
functions below follow the documented semantics of the Go standard library
functions used by the repository. -/

/-- Model of the UTF-8 byte width of one character (Go strings are UTF-8). -/
def charUtf8Len (c : Char) : Nat :=
  if c.val < 0x80 then 1
  else if c.val < 0x800 then 2
  else if c.val < 0x10000 then 3
  else 4

/-- Model of the Go builtin len() on a string: its byte length. -/
def lenGo (s : String) : Nat := (s.data.map charUtf8Len).sum

/-- Model of Go strings.HasPrefix. -/
def hasPrefixGo (s pre : String) : Bool := pre.data.isPrefixOf s.data

/-- Model of Go strings.HasSuffix. -/
def hasSuffixGo (s suf : String) : Bool := suf.data.isSuffixOf s.data

/-- Model of Go strings.TrimPrefix: drops pre when it heads s, else returns s. -/
def trimPrefixGo (s pre : String) : String :=
  if pre.data.isPrefixOf s.data then String.mk (s.data.drop pre.data.length) else s

/-- Model of Go strings.TrimSuffix: drops suf when it ends s, else returns s. -/
def trimSuffixGo (s suf : String) : String :=
  if suf.data.isSuffixOf s.data then
    String.mk (s.data.take (s.data.length - suf.data.length))
  else s

/-! ## Go path.Clean and path.Join

Following the documented algorithm of Go path.Clean: split on the path
separator, drop empty and "." components, resolve ".." components with a
stack, re-join, restoring a leading "/" for rooted paths and returning "."
for an empty result. -/

/-- Splits a character list at every '/' (the components keep no separator). -/
def splitSlash : List Char → List (List Char)
  | [] => [[]]
  | c :: rest =>
    if c = '/' then [] :: splitSlash rest
    else
      match splitSlash rest with
      | [] => [[c]]
      | s :: ss => (c :: s) :: ss

/-- Character list of the ".." path component. -/
def dotdot : List Char := ['.', '.']

/-- Stack-based resolution of ".." components, as in Go path.Clean.  In a
rooted path a ".." that would escape the root is dropped; in a relative path
it is kept. -/
def resolveDots (rooted : Bool) : List (List Char) → List (List Char) → List (List Char)
  | acc, [] => acc.reverse
  | acc, c :: rest =>
    if c = dotdot then
      match acc with
      | [] => if rooted then resolveDots rooted [] rest else resolveDots rooted [dotdot] rest
      | top :: accRest =>
        if top = dotdot then resolveDots rooted (dotdot :: acc) rest
        else resolveDots rooted accRest rest
    else resolveDots rooted (c :: acc) rest

/-- Joins components with '/' separators (no leading or trailing separator). -/
def interSlash : List (List Char) → List Char
  | [] => []
  | [c] => c
  | c :: rest => c ++ '/' :: interSlash rest

/-- Model of Go path.Clean (documented component algorithm). -/
def pathCleanGo (p : String) : String :=
  if p = "" then "."
  else
    let rooted := p.data.head? = some '/'
    let comps := (splitSlash p.data).filter (fun c => !c.isEmpty && c ≠ ['.'])
    let comps := resolveDots rooted [] comps
    if rooted then String.mk ('/' :: interSlash comps)
    else if comps.isEmpty then "." else String.mk (interSlash comps)

/-- Model of Go path.Join on two elements: empty elements are dropped, the
rest are joined with '/' and the result is cleaned; all-empty input gives
the empty string. -/
def pathJoinGo (a b : String) : String :=
  if a = "" && b = "" then ""
  else if a = "" then pathCleanGo b
  else pathCleanGo (a ++ "/" ++ b)

/-! ## Mount resolution (cmd/secrets/create.go)

MountInfo and findMountForSecret are embedded from cmd/secrets/create.go.
The Go map of mounts is modelled as an association list with distinct keys;
Go map indexing of a missing key yields the zero value MountInfo. -/

/-- Embedding of the MountInfo struct of cmd/secrets/create.go. -/
structure MountInfo where
  MountPath : String
  Version : String
deriving DecidableEq, Repr

/-- Zero value of the MountInfo struct, produced by Go map indexing on a
missing key. -/
def MountInfo.zero : MountInfo := ⟨"", ""⟩

/-- Model of Go map indexing mounts[k] (zero value on a missing key). -/
def lookupMount (mounts : List (String × MountInfo)) (k : String) : MountInfo :=
  ((mounts.find? (fun pr => pr.1 = k)).map Prod.snd).getD MountInfo.zero

/-- Loop body of the bestMatch loop of findMountForSecret: a mount replaces
the current best match when it prefixes the secret path and is strictly
longer (in bytes). -/
def bmStep (secretPath : String) (best : String) (pr : String × MountInfo) : String :=
  if hasPrefixGo secretPath pr.1 && decide (lenGo best < lenGo pr.1) then pr.1 else best

/-- Embedding of the bestMatch loop of findMountForSecret: iterate over the
mounts, keeping the matching mount path of maximal byte length. -/
def bestMountMatch (secretPath : String) (mounts : List (String × MountInfo)) : String :=
  mounts.foldl (bmStep secretPath) ""

/-- Embedding of findMountForSecret of cmd/secrets/create.go.  The clientOk
flag models whether GetVaultClient found a client in the context; when it
did not, the function returns an error.  Otherwise it returns the MountInfo
of the longest mount path that prefixes secretPath (the zero MountInfo when
no mount matches) together with the relative path. -/
def findMountForSecret (clientOk : Bool) (secretPath : String)
    (mounts : List (String × MountInfo)) : Except String (MountInfo × String) :=
  if !clientOk then .error "vault client not found in context"
  else
    let bestMatch := bestMountMatch secretPath mounts
    let relativePath := trimSuffixGo (trimPrefixGo secretPath bestMatch) "/"
    .ok (lookupMount mounts bestMatch, relativePath)

/-! ## Dynamic Go values (map[string]interface value trees)

The Vault mount-listing response has the Go type map[string]interface, with
nested maps and strings inside.  GoVal models an interface value (nil, a
string, or a map); GoEntries models a map as an association list. -/

mutual
/-- Model of a Go interface value as produced by the mount listing. -/
inductive GoVal where
  | vnil : GoVal
  | vstr : String → GoVal
  | vmap : GoEntries → GoVal
/-- Model of a Go map from string to interface values. -/
inductive GoEntries where
  | nil : GoEntries
  | cons : String → GoVal → GoEntries → GoEntries
end

/-- Finds the value bound to a key in a Go map model. -/
def GoEntries.findVal : GoEntries → String → Option GoVal
  | .nil, _ => none
  | .cons k v rest, key => if k = key then some v else rest.findVal key

/-- Model of Go map indexing m[k]: a missing key yields the zero value of the
element type, which for interface-typed maps is nil. -/
def goIndex (m : GoEntries) (k : String) : GoVal := (m.findVal k).getD .vnil

/-- Go runtime panic message for a failed interface-to-map type assertion. -/
def assertMapFailMsg : String :=
  "interface conversion: interface \x7b\x7d is not map[string]interface \x7b\x7d"

/-- Model of the unchecked Go type assertion v.(map[string]interface) used by
GetSourceMountVersion: it panics (error case) unless the value is a map. -/
def assertMapGo : GoVal → Except String GoEntries
  | .vmap e => .ok e
  | _ => .error assertMapFailMsg

/-- Model of the checked Go type assertion v.(map[string]interface) with the
ok flag, as used by GetSecretEngines: no panic, none when not a map. -/
def asMapOk : GoVal → Option GoEntries
  | .vmap e => some e
  | _ => none

/-- Model of the checked Go type assertion v.(string) with the ok flag. -/
def asStrOk : GoVal → Option String
  | .vstr s => some s
  | _ => none

mutual
/-- Model of Go fmt.Sprintf with verb v on an interface value: nil prints as
the string form of nil, strings print verbatim, maps print their entries. -/
def sprintfAny : GoVal → String
  | .vnil => "<nil>"
  | .vstr s => s
  | .vmap e => "map[" ++ sprintfEntries e ++ "]"
/-- Entry rendering used by sprintfAny for map values. -/
def sprintfEntries : GoEntries → String
  | .nil => ""
  | .cons k v .nil => k ++ ":" ++ sprintfAny v
  | .cons k v rest => k ++ ":" ++ sprintfAny v ++ " " ++ sprintfEntries rest
end

/-- Go runtime panic message for dereferencing a nil pointer. -/
def nilDerefMsg : String := "runtime error: invalid memory address or nil pointer dereference"

/-! ## Protocol version detector (GetSourceMountVersion, copy command)

Embedded from the copy command source.  The result type Except String String
uses the error case for a Go runtime panic: the function indexes the
response data and applies two unchecked type assertions, so a listing
failure (nil response), a missing mount entry or a missing options map make
it panic rather than return an error.  mountsListing is the result of the
MountsListSecretsEngines server call. -/

/-- Slash normalization of the source mount selector performed at the top of
GetSourceMountVersion before indexing the listing response. -/
def normalizeMount (sourceMount : String) : String :=
  if hasSuffixGo sourceMount "/" then sourceMount else sourceMount ++ "/"

/-- Embedding of GetSourceMountVersion: normalizes the source mount with a
trailing slash, then reads response.Data[sourceMount].(map)["options"].(map)
["version"] and formats it with fmt.Sprintf verb v.  The error case is a
runtime panic message. -/
def GetSourceMountVersion (mountsListing : Except String GoEntries)
    (sourceMount : String) : Except String String :=
  let sm := normalizeMount sourceMount
  match mountsListing with
  | .error _ => .error nilDerefMsg
  | .ok data =>
    match assertMapGo (goIndex data sm) with
    | .error p => .error p
    | .ok entry =>
      match assertMapGo (goIndex entry "options") with
      | .error p => .error p
      | .ok options => .ok (sprintfAny (goIndex options "version"))

/-! ## Secret engine listing (GetSecretEngines, create command) -/

/-- Embedding of the version extraction of GetSecretEngines: the version
starts as the empty string and is replaced only when the options map exists
and holds a string version. -/
def extractVersion (data : GoEntries) : String :=
  match asMapOk (goIndex data "options") with
  | none => ""
  | some options =>
    match asStrOk (goIndex options "version") with
    | none => ""
    | some v => v

/-- Embedding of the mount loop of GetSecretEngines: every mount whose raw
data is a map becomes a MountInfo (others are skipped with a warning). -/
def GetSecretEngines : GoEntries → List (String × MountInfo)
  | .nil => []
  | .cons mountPath raw rest =>
    match asMapOk raw with
    | none => GetSecretEngines rest
    | some data => (mountPath, ⟨mountPath, extractVersion data⟩) :: GetSecretEngines rest

/-- Embedding of the full GetSecretEngines function, including the client
check and the propagation of a listing error. -/
def GetSecretEnginesRun (clientOk : Bool) (mountsListing : Except String GoEntries) :
    Except String (List (String × MountInfo)) :=
  if !clientOk then .error "vault client not found in context"
  else
    match mountsListing with
    | .error e => .error e
    | .ok data => .ok (GetSecretEngines data)

/-! ## Structured log lines -/

/-- Model of one structured log line (slog.Error, slog.Warn, slog.Info). -/
inductive Log where
  | logError (msg : String)
  | logWarn (msg : String)
  | logInfo (msg : String)
deriving DecidableEq, Repr

/-- Tests whether a log line is a warning. -/
def Log.isWarn : Log → Bool
  | .logWarn _ => true
  | _ => false

/-! ## Namespace traversal (ListSecrets, copy command)

The source server's answers to the version-specific list calls are modelled
as a tree: listing a path either returns its keys (dir), or a 404 (notFound)
or another server error (srvErr).  Directory keys carry a trailing slash, as
Vault reports them; keys without a trailing slash are leaf secrets, whose
child node is never listed by the code (we conventionally store notFound
there, since listing a leaf path returns 404). -/

mutual
/-- Model of the server's answer to listing one path. -/
inductive Node where
  | dir : Entries → Node
  | notFound : Node
  | srvErr : String → Node
/-- Association list of listed keys and the nodes behind them. -/
inductive Entries where
  | nil : Entries
  | cons : String → Node → Entries → Entries
end

/-- Wrapped error produced when a list call fails with a non-404 error, as
formatted by the traversal with fmt.Errorf. -/
def listFailMsg (kvVersion currentPath msg : String) : String :=
  "kv v" ++ kvVersion ++ " list failed at path \"" ++ currentPath ++ "\": " ++ msg

/-- Log line emitted by the traversal when a list call returns 404. -/
def log404 (currentPath : String) : Log :=
  .logError ("404 Not Found at: path=" ++ currentPath)

mutual
/-- Embedding of the recursive traverse closure of ListSecrets, at one node:
an unsupported kv version fails before any listing; a 404 logs and ends the
branch; another server error produces the wrapped error; keys are processed
in order.  Returns the logs emitted and either the collected leaf paths or
the aborting error. -/
def traverseNode (kvVersion sourceMount currentPath : String) (n : Node) :
    List Log × Except String (List String) :=
  if kvVersion = "1" ∨ kvVersion = "2" then
    match n with
    | .dir entries => traverseEntries kvVersion sourceMount currentPath entries
    | .notFound => ([log404 currentPath], .ok [])
    | .srvErr msg => ([], .error (listFailMsg kvVersion currentPath msg))
  else ([], .error ("unsupported kv version: " ++ kvVersion))
/-- Embedding of the key loop of the traverse closure: a key with a trailing
slash is recursed into (aborting on error); a key without one contributes
the join of the mount path and the full path. -/
def traverseEntries (kvVersion sourceMount currentPath : String) (es : Entries) :
    List Log × Except String (List String) :=
  match es with
  | .nil => ([], .ok [])
  | .cons key child rest =>
    let full := pathJoinGo currentPath key
    if hasSuffixGo key "/" then
      match traverseNode kvVersion sourceMount full child with
      | (logs, .error e) => (logs, .error e)
      | (logs, .ok l) =>
        match traverseEntries kvVersion sourceMount currentPath rest with
        | (logs2, .error e) => (logs ++ logs2, .error e)
        | (logs2, .ok l2) => (logs ++ logs2, .ok (l ++ l2))
    else
      match traverseEntries kvVersion sourceMount currentPath rest with
      | (logs2, .error e) => (logs2, .error e)
      | (logs2, .ok l2) => (logs2, .ok (pathJoinGo sourceMount full :: l2))
end

/-- Result of a batch phase: a runtime panic, a returned error, or a value. -/
inductive GoRes (α : Type) where
  | panicked (msg : String)
  | failed (msg : String)
  | ok (val : α)

/-- Embedding of ListSecrets: detect the source mount version (its panic
propagates), then run the traversal from the empty relative path. -/
def ListSecrets (mountsListing : Except String GoEntries) (sourceMount : String)
    (tree : Node) : List Log × GoRes (List String) :=
  match GetSourceMountVersion mountsListing sourceMount with
  | .error p => ([], .panicked p)
  | .ok kvVersion =>
    match traverseNode kvVersion sourceMount "" tree with
    | (logs, .error e) => (logs, .failed e)
    | (logs, .ok l) => (logs, .ok l)

/-! ## Replication pipeline (CopySecrets, copy command)

The pipeline input bundles the target credentials, the source mount-listing
response, both mount selectors, the source listing tree and the four
version-specific read/write server operations (read on the source
connection, write on the target connection, each taking the relative path).
The field targetVariant records the actual protocol variant of the target
mount, a fact of the environment; the code never consults it. -/

/-- Version-specific write operation shape of the Vault client. -/
inductive WriteOp where
  | v1 : WriteOp
  | v2 : WriteOp
deriving DecidableEq, Repr

/-- Protocol variant of a mount. -/
inductive Variant where
  | legacy : Variant
  | versioned : Variant
deriving DecidableEq, Repr

/-- Write operation matching a protocol variant. -/
def opOfVariant : Variant → WriteOp
  | .legacy => .v1
  | .versioned => .v2

/-- Write operation selected by the code from a detected kv version string. -/
def opOfKvVersion : String → Option WriteOp
  | "1" => some .v1
  | "2" => some .v2
  | _ => none

/-- Record of one write issued to the target connection. -/
structure WriteRec where
  op : WriteOp
  path : String
  data : Option GoEntries

/-- Way a pipeline invocation ended. -/
inductive RunExit where
  | exitFatal (msg : String)
  | panicked (msg : String)
  | returnedError (msg : String)
  | returnedNil
deriving DecidableEq, Repr

/-- Input of one CopySecrets run. -/
structure CopyInput where
  targetAddr : String
  targetToken : String
  targetVariant : Variant
  mountsListing : Except String GoEntries
  sourceMount : String
  targetMount : String
  tree : Node
  readV1 : String → Except String (Option GoEntries)
  readV2 : String → Except String (Option GoEntries)
  writeV1 : String → Option GoEntries → Except String Unit
  writeV2 : String → Option GoEntries → Except String Unit

/-- Observable result of one CopySecrets run: how it ended, the log lines
emitted, and the writes issued to the target connection. -/
structure RunResult where
  exit : RunExit
  logs : List Log
  writes : List WriteRec

/-- Result of processing one discovered path in the copy loop. -/
inductive StepRes where
  | stepCont (logs : List Log) (writes : List WriteRec)
  | stepPanic (msg : String) (logs : List Log)

/-- Embedding of the kv v1 arm of the copy loop: a read error logs and skips
the path; a nil payload logs a warning; the payload is then written (as v1)
to the target mount, a write error logging and skipping the path. -/
def copyStepV1 (inp : CopyInput) (fullPath relativePath : String) : StepRes :=
  match inp.readV1 relativePath with
  | .error e =>
    .stepCont [.logError ("failed to read KV v1 secret: path=" ++ fullPath ++ " error=" ++ e)] []
  | .ok dat =>
    let warnLogs : List Log :=
      if dat.isNone then [.logWarn ("no data found at KV v1 secret: path=" ++ fullPath)] else []
    match inp.writeV1 relativePath dat with
    | .error e =>
      .stepCont (warnLogs ++
        [.logError ("failed to write KV v1 secret to target mount: path=" ++ relativePath ++
          " error=" ++ e)]) []
    | .ok _ =>
      .stepCont (warnLogs ++
        [.logInfo ("successfully copied KV v1 secret: path=" ++ relativePath)])
        [⟨.v1, relativePath, dat⟩]

/-- Embedding of the kv v2 arm of the copy loop: a read error logs but does
not skip (the source has no continue statement there), so the code then
dereferences the nil response and panics; a nil payload logs a warning; the
payload is written (as v2) to the target mount, a write error logging and
skipping the path. -/
def copyStepV2 (inp : CopyInput) (fullPath relativePath : String) : StepRes :=
  match inp.readV2 relativePath with
  | .error e =>
    .stepPanic nilDerefMsg
      [.logError ("failed to read KV v2 secret: path=" ++ fullPath ++ " error=" ++ e)]
  | .ok dat =>
    let warnLogs : List Log :=
      if dat.isNone then [.logWarn ("no data found at KV v2 secret: path=" ++ fullPath)] else []
    match inp.writeV2 relativePath dat with
    | .error e =>
      .stepCont (warnLogs ++
        [.logError ("failed to write KV v2 secret to target mount: path=" ++ relativePath ++
          " error=" ++ e)]) []
    | .ok _ =>
      .stepCont (warnLogs ++ [.logInfo ("copied KV v2 secret: path=" ++ relativePath)])
        [⟨.v2, relativePath, dat⟩]

/-- Embedding of the per-path loop of CopySecrets: each discovered full path
is stripped of the slash-normalized source mount, then dispatched on the
detected kv version; an unrecognized version returns an error to the caller. -/
def copyLoop (inp : CopyInput) (kvVersion : String) :
    List String → List Log → List WriteRec → RunResult
  | [], logs, ws => ⟨.returnedNil, logs, ws⟩
  | fullPath :: rest, logs, ws =>
    let relativePath := trimPrefixGo fullPath (trimSuffixGo inp.sourceMount "/" ++ "/")
    match kvVersion with
    | "1" =>
      match copyStepV1 inp fullPath relativePath with
      | .stepCont l w => copyLoop inp kvVersion rest (logs ++ l) (ws ++ w)
      | .stepPanic m l => ⟨.panicked m, logs ++ l, ws⟩
    | "2" =>
      match copyStepV2 inp fullPath relativePath with
      | .stepCont l w => copyLoop inp kvVersion rest (logs ++ l) (ws ++ w)
      | .stepPanic m l => ⟨.panicked m, logs ++ l, ws⟩
    | _ =>
      ⟨.returnedError ("unsupported KV version: " ++ kvVersion),
       logs ++ [.logError ("unsupported KV version: version=" ++ kvVersion)], ws⟩

/-- Embedding of CopySecrets: missing target credentials exit fatally before
any secret is touched; the source mount version is detected (a panic
propagates); ListSecrets failure exits fatally; then every discovered path
is processed by the loop. -/
def CopySecrets (inp : CopyInput) : RunResult :=
  if inp.targetAddr = "" ∨ inp.targetToken = "" then
    ⟨.exitFatal "VAULT_TARGET_ADDR and VAULT_TARGET_TOKEN environment variables are required",
     [.logError "VAULT_TARGET_ADDR and VAULT_TARGET_TOKEN environment variables are required"],
     []⟩
  else
    match GetSourceMountVersion inp.mountsListing inp.sourceMount with
    | .error p => ⟨.panicked p, [], []⟩
    | .ok kvVersion =>
      match ListSecrets inp.mountsListing inp.sourceMount inp.tree with
      | (tlogs, .panicked p) => ⟨.panicked p, tlogs, []⟩
      | (tlogs, .failed e) =>
        ⟨.exitFatal ("failed to list secrets under source mount: " ++ e),
         tlogs ++ [.logError ("failed to list secrets under source mount: error=" ++ e)], []⟩
      | (tlogs, .ok secretsList) => copyLoop inp kvVersion secretsList tlogs []

/-! ## Bulk provisioner (CreateSecrets, create command) -/

/-- Outcome of provisioning one secret definition. -/
inductive CreateOutcome where
  | wroteV2 (mount relativePath : String)
  | v2WriteFailed (msg : String)
  | wroteV1 (mount relativePath : String)
  | v1WriteFailed (msg : String)
  | skippedUnsupported (version : String)
  | mountError (msg : String)
deriving DecidableEq, Repr

/-- Embedding of the body of the CreateSecrets loop for one secret: resolve
the mount (an error logs and skips), strip a trailing slash off the mount
path, then switch on the mount's version: writes for versions 2 and 1, and
a logged skip for any other version value. -/
def createSecretStep (clientOk : Bool) (mounts : List (String × MountInfo))
    (writeV1 writeV2 : String → String → GoEntries → Except String Unit)
    (secretPath : String) (secretData : GoEntries) : CreateOutcome × List Log :=
  match findMountForSecret clientOk secretPath mounts with
  | .error _ => (.mountError "mount not found",
      [.logError ("mount not found for secret: path=" ++ secretPath)])
  | .ok (mountInfo, relativePath) =>
    let mount := trimSuffixGo mountInfo.MountPath "/"
    match mountInfo.Version with
    | "2" =>
      match writeV2 mount relativePath secretData with
      | .error e => (.v2WriteFailed e,
          [.logError ("failed to write KV v2 secret: path=" ++ secretPath ++ " error=" ++ e)])
      | .ok _ => (.wroteV2 mount relativePath,
          [.logInfo ("KV v2 secret written: path=" ++ secretPath)])
    | "1" =>
      match writeV1 mount relativePath secretData with
      | .error e => (.v1WriteFailed e,
          [.logError ("failed to write KV v1 secret: path=" ++ secretPath ++ " error=" ++ e)])
      | .ok _ => (.wroteV1 mount relativePath,
          [.logInfo ("KV v1 secret written: path=" ++ secretPath)])
    | v => (.skippedUnsupported v,
        [.logError ("unsupported KV version: version=" ++ v ++ " path=" ++ secretPath)])

/-- Embedding of the CreateSecrets loop: every entry is processed
independently (every failure arm of the body ends in continue), so the loop
is a plain traversal of the batch. -/
def createLoop (clientOk : Bool) (mounts : List (String × MountInfo))
    (writeV1 writeV2 : String → String → GoEntries → Except String Unit) :
    List (String × GoEntries) → List (String × CreateOutcome) × List Log
  | [] => ([], [])
  | (p, d) :: rest =>
    let (o, l) := createSecretStep clientOk mounts writeV1 writeV2 p d
    let (os, ls) := createLoop clientOk mounts writeV1 writeV2 rest
    ((p, o) :: os, l ++ ls)

/-- Observable result of one CreateSecrets run. -/
structure CreateRunResult where
  exit : RunExit
  outcomes : List (String × CreateOutcome)
  logs : List Log

/-- Embedding of CreateSecrets (after the file has been read and parsed,
which is input/output glue): a missing client returns an error; a mount
listing failure exits fatally; otherwise every parsed secret is provisioned
by the loop and the function returns nil. -/
def CreateSecrets (clientOk : Bool) (mountsListing : Except String GoEntries)
    (writeV1 writeV2 : String → String → GoEntries → Except String Unit)
    (secrets : List (String × GoEntries)) : CreateRunResult :=
  if !clientOk then ⟨.returnedError "vault client not found in context", [], []⟩
  else
    match GetSecretEnginesRun clientOk mountsListing with
    | .error e =>
      ⟨.exitFatal ("unable to list KV secret engines: " ++ e),
       [], [.logError ("unable to list KV secret engines: error=" ++ e)]⟩
    | .ok mountsMap =>
      let (os, ls) := createLoop clientOk mountsMap writeV1 writeV2 secrets
      ⟨.returnedNil, os, ls⟩

/-! ## Specification-side definitions

Component-level descriptions of paths and trees, used to state the traversal
and mount-resolution properties independently of the string algorithms. -/

/-- Simple path component: nonempty, separator-free and not a dot component. -/
def simpleComp (c : List Char) : Bool :=
  !c.isEmpty && !c.contains '/' && c ≠ ['.'] && c ≠ dotdot

/-- Simple listed key: a simple component, optionally carrying one trailing
separator (which marks a namespace key). -/
def simpleKey (k : String) : Bool :=
  if hasSuffixGo k "/" then simpleComp k.data.dropLast else simpleComp k.data

/-- Component spelled by a key, its trailing separator removed. -/
def keyComp (k : String) : List Char :=
  if hasSuffixGo k "/" then k.data.dropLast else k.data

mutual
/-- Well-formed all-listable tree: a dir whose keys are simple and whose
namespace keys (trailing separator) lead to well-formed subtrees. -/
def simpleOkNode : Node → Bool
  | .dir es => simpleOkEntries es
  | _ => false
/-- Entry-list side of simpleOkNode. -/
def simpleOkEntries : Entries → Bool
  | .nil => true
  | .cons k child rest =>
    simpleKey k && (if hasSuffixGo k "/" then simpleOkNode child else true)
      && simpleOkEntries rest
end

mutual
/-- Leaf secrets reachable in a tree, as lists of components from the root:
the specification-side description of what the traversal must produce. -/
def leafCompsNode : Node → List (List (List Char))
  | .dir es => leafCompsEntries es
  | _ => []
/-- Entry-list side of leafCompsNode: a leaf key is one leaf path, a
namespace key prepends its component to every leaf path of its subtree. -/
def leafCompsEntries : Entries → List (List (List Char))
  | .nil => []
  | .cons k child rest =>
    if hasSuffixGo k "/" then
      (leafCompsNode child).map (fun cs => keyComp k :: cs) ++ leafCompsEntries rest
    else [keyComp k] :: leafCompsEntries rest
end

/-- String spelled by slash-joining components. -/
def strOfComps (cs : List (List Char)) : String := String.mk (interSlash cs)

/-- Nonempty separator-split components of a mount selector. -/
def mountComps (mount : String) : List (List Char) :=
  (splitSlash mount.data).filter (fun c => !c.isEmpty)

/-- Simple mount selector: one or more simple components, optionally with a
single trailing separator. -/
def simpleMount (mount : String) : Bool :=
  let parts := splitSlash mount.data
  let core := if parts.getLast? = some [] then parts.dropLast else parts
  !core.isEmpty && core.all simpleComp

/-- Concatenation of two entry lists of a tree level. -/
def appendEntries : Entries → Entries → Entries
  | .nil, es2 => es2
  | .cons k c rest, es2 => .cons k c (appendEntries rest es2)

/-! ## Concrete inputs used by the scenario theorems and counterexamples -/

/-- Scenario tree of the traversal claim: keys x (leaf) and y/ (namespace)
holding z (leaf).  Leaf keys carry notFound children, which the traversal
never lists. -/
def treeScenario : Node :=
  .dir (.cons "x" .notFound (.cons "y/" (.dir (.cons "z" .notFound .nil)) .nil))

/-- Mount listing response: mount secrets/ with options version 2. -/
def mountsOk2 : GoEntries :=
  .cons "secrets/" (.vmap (.cons "options" (.vmap (.cons "version" (.vstr "2") .nil)) .nil)) .nil

/-- Mount listing response: mount secrets/ with options version 1. -/
def mountsOk1 : GoEntries :=
  .cons "secrets/" (.vmap (.cons "options" (.vmap (.cons "version" (.vstr "1") .nil)) .nil)) .nil

/-- Mount listing response: mount secrets/ with the unrecognized version 3. -/
def mountsV3 : GoEntries :=
  .cons "secrets/" (.vmap (.cons "options" (.vmap (.cons "version" (.vstr "3") .nil)) .nil)) .nil

/-- Mount listing response: mount secrets/ whose options map has no version
field. -/
def mountsNoVer : GoEntries :=
  .cons "secrets/" (.vmap (.cons "options" (.vmap .nil) .nil)) .nil

/-- Mount listing response: mount secrets/ whose configuration has no
options map at all. -/
def mountsNoOpts : GoEntries := .cons "secrets/" (.vmap .nil) .nil

/-- Sample nonempty secret payload. -/
def payloadKV : GoEntries := .cons "k" (.vstr "v") .nil

/-- Target write operation that always succeeds (both shapes). -/
def writeOkFn : String → Option GoEntries → Except String Unit := fun _ _ => .ok ()

/-- Create-side write operation that always succeeds. -/
def createWriteOkFn : String → String → GoEntries → Except String Unit := fun _ _ _ => .ok ()

/-- Copy run on a kv v2 source where reading the first discovered secret
fails and reading the second would succeed. -/
def copyInputV2ReadErr : CopyInput where
  targetAddr := "http://target:8200"
  targetToken := "token"
  targetVariant := .versioned
  mountsListing := .ok mountsOk2
  sourceMount := "secrets"
  targetMount := "backup"
  tree := .dir (.cons "a" .notFound (.cons "b" .notFound .nil))
  readV1 := fun _ => .ok (some payloadKV)
  readV2 := fun r => if r = "a" then .error "permission denied" else .ok (some payloadKV)
  writeV1 := writeOkFn
  writeV2 := writeOkFn

/-- Copy run whose source mount is the legacy variant (version 1) while the
target mount is the versioned variant: the cross-variant shape of the
replication claim. -/
def copyInputCrossVariant : CopyInput where
  targetAddr := "http://target:8200"
  targetToken := "token"
  targetVariant := .versioned
  mountsListing := .ok mountsOk1
  sourceMount := "secrets"
  targetMount := "backup"
  tree := .dir (.cons "a" .notFound .nil)
  readV1 := fun _ => .ok (some payloadKV)
  readV2 := fun _ => .ok (some payloadKV)
  writeV1 := writeOkFn
  writeV2 := writeOkFn

/-- Copy run whose source mount reports the unrecognized version 3. -/
def copyInputUnsupportedVer : CopyInput where
  targetAddr := "http://target:8200"
  targetToken := "token"
  targetVariant := .legacy
  mountsListing := .ok mountsV3
  sourceMount := "secrets"
  targetMount := "backup"
  tree := .dir (.cons "a" .notFound .nil)
  readV1 := fun _ => .ok (some payloadKV)
  readV2 := fun _ => .ok (some payloadKV)
  writeV1 := writeOkFn
  writeV2 := writeOkFn

/-- Copy run on a kv v1 source where the read of the single secret succeeds
with an empty (but not nil) payload. -/
def copyInputEmptyPayload : CopyInput where
  targetAddr := "http://target:8200"
  targetToken := "token"
  targetVariant := .legacy
  mountsListing := .ok mountsOk1
  sourceMount := "secrets"
  targetMount := "backup"
  tree := .dir (.cons "a" .notFound .nil)
  readV1 := fun _ => .ok (some .nil)
  readV2 := fun _ => .ok (some .nil)
  writeV1 := writeOkFn
  writeV2 := writeOkFn

/-! # Theorems

Helper lemmas about the path algorithms first, then the claim theorems. -/

theorem splitSlash_ne_nil (l : List Char) : splitSlash l ≠ [] := by
  induction l with
  | nil => simp [splitSlash]
  | cons c rest ih =>
    simp only [splitSlash]
    split
    · simp
    · split
      · simp
      · simp

theorem contains_cons_false {ch : Char} {c' : List Char} {x : Char}
    (hc : (ch :: c').contains x = false) : ¬ ch = x ∧ c'.contains x = false := by
  simp only [List.contains_cons, Bool.or_eq_false_iff, beq_eq_false_iff_ne] at hc
  exact ⟨fun h => hc.1 h.symm, hc.2⟩

theorem splitSlash_append_slash (c : List Char) (b : List Char)
    (hc : c.contains '/' = false) :
    splitSlash (c ++ '/' :: b) = c :: splitSlash b := by
  induction c with
  | nil => simp [splitSlash]
  | cons ch c' ih =>
    obtain ⟨hch, hc'⟩ := contains_cons_false hc
    have hrec := ih hc'
    simp only [List.cons_append, splitSlash, if_neg hch, List.append_eq, hrec]

theorem splitSlash_single (c : List Char) (hc : c.contains '/' = false) :
    splitSlash c = [c] := by
  induction c with
  | nil => simp [splitSlash]
  | cons ch c' ih =>
    obtain ⟨hch, hc'⟩ := contains_cons_false hc
    simp only [splitSlash, if_neg hch, ih hc']

theorem interSlash_cons_cons (c c2 : List Char) (cs : List (List Char)) :
    interSlash (c :: c2 :: cs) = c ++ '/' :: interSlash (c2 :: cs) := rfl

theorem splitSlash_interSlash_append (cs : List (List Char)) (b : List Char)
    (hne : cs ≠ []) (hc : ∀ c ∈ cs, c.contains '/' = false) :
    splitSlash (interSlash cs ++ '/' :: b) = cs ++ splitSlash b := by
  induction cs with
  | nil => exact absurd rfl hne
  | cons c cs' ih =>
    cases cs' with
    | nil =>
      simpa [interSlash] using splitSlash_append_slash c b (hc c (by simp))
    | cons c2 cs'' =>
      rw [interSlash_cons_cons, List.append_assoc, List.cons_append]
      rw [splitSlash_append_slash c _ (hc c (by simp))]
      rw [ih (by simp) (fun x hx => hc x (List.mem_cons_of_mem c hx))]
      simp

theorem splitSlash_interSlash (cs : List (List Char)) (hne : cs ≠ [])
    (hc : ∀ c ∈ cs, c.contains '/' = false) :
    splitSlash (interSlash cs) = cs := by
  cases cs with
  | nil => exact absurd rfl hne
  | cons c cs' =>
    cases cs' with
    | nil => simpa [interSlash] using splitSlash_single c (hc c (by simp))
    | cons c2 cs'' =>
      rw [interSlash_cons_cons]
      rw [splitSlash_append_slash c _ (hc c (by simp))]
      rw [splitSlash_interSlash (c2 :: cs'') (by simp)
        (fun x hx => hc x (List.mem_cons_of_mem c hx))]

theorem interSlash_splitSlash (l : List Char) : interSlash (splitSlash l) = l := by
  induction l with
  | nil => rfl
  | cons c rest ih =>
    obtain ⟨s, ss, hs⟩ := List.exists_cons_of_ne_nil (splitSlash_ne_nil rest)
    rw [hs] at ih
    by_cases h : c = '/'
    · subst h
      have h1 : splitSlash ('/' :: rest) = [] :: s :: ss := by
        simp [splitSlash, hs]
      rw [h1, interSlash_cons_cons, List.nil_append, ih]
    · have h1 : splitSlash (c :: rest) = (c :: s) :: ss := by
        simp only [splitSlash, if_neg h, hs]
      rw [h1]
      cases ss with
      | nil =>
        have hrest : s = rest := by simpa [interSlash] using ih
        simp [interSlash, hrest]
      | cons s2 ss' =>
        rw [interSlash_cons_cons]
        rw [interSlash_cons_cons] at ih
        rw [← ih]
        simp

theorem resolveDots_no_dots (rooted : Bool) (acc cs : List (List Char))
    (h : ∀ c ∈ cs, c ≠ dotdot) : resolveDots rooted acc cs = acc.reverse ++ cs := by
  induction cs generalizing acc with
  | nil => simp [resolveDots]
  | cons c cs' ih =>
    rw [resolveDots.eq_def]
    simp only [if_neg (h c (by simp))]
    rw [ih (c :: acc) (fun x hx => h x (List.mem_cons_of_mem c hx))]
    simp

theorem interSlash_append_empty (cs : List (List Char)) (hne : cs ≠ []) :
    interSlash (cs ++ [[]]) = interSlash cs ++ ['/'] := by
  induction cs with
  | nil => exact absurd rfl hne
  | cons c cs' ih =>
    cases cs' with
    | nil => simp [interSlash]
    | cons c2 cs'' =>
      have ih' := ih (by simp)
      simp only [List.cons_append] at ih' ⊢
      rw [interSlash_cons_cons, interSlash_cons_cons, ih']
      simp

theorem simpleComp_props {c : List Char} (h : simpleComp c = true) :
    c ≠ [] ∧ c.contains '/' = false ∧ c ≠ ['.'] ∧ c ≠ dotdot := by
  simp only [simpleComp, Bool.and_eq_true, Bool.not_eq_true', decide_eq_true_eq] at h
  refine ⟨?_, h.1.1.2, h.1.2, h.2⟩
  intro he
  subst he
  simp at h

theorem simpleKey_props {k : String} (h : simpleKey k = true) :
    simpleComp (keyComp k) = true ∧
      (k.data = keyComp k ∨ k.data = keyComp k ++ ['/']) := by
  by_cases hs : hasSuffixGo k "/" = true
  · have hc : simpleComp k.data.dropLast = true := by
      simpa [simpleKey, hs] using h
    have hsuf : ['/'] <:+ k.data := by
      have := hs
      simp only [hasSuffixGo, List.isSuffixOf_iff_suffix] at this
      exact this
    obtain ⟨t, ht⟩ := hsuf
    have hdrop : k.data.dropLast = t := by rw [← ht]; exact List.dropLast_concat ..
    refine ⟨by simpa [keyComp, hs] using hc, Or.inr ?_⟩
    simp [keyComp, hs, hdrop, ← ht]
  · have hs' : hasSuffixGo k "/" = false := by simpa using hs
    have hc : simpleComp k.data = true := by simpa [simpleKey, hs'] using h
    exact ⟨by simpa [keyComp, hs'] using hc, Or.inl (by simp [keyComp, hs'])⟩

theorem interSlash_cons_head (ch : Char) (c' : List Char) (cs : List (List Char)) :
    ∃ t, interSlash ((ch :: c') :: cs) = ch :: t := by
  cases cs with
  | nil => exact ⟨c', rfl⟩
  | cons c2 cs' => exact ⟨c' ++ '/' :: interSlash (c2 :: cs'), rfl⟩

theorem interSlash_ne_nil (cs : List (List Char)) (hne : cs ≠ [])
    (hc : ∀ c ∈ cs, c ≠ []) : interSlash cs ≠ [] := by
  cases cs with
  | nil => exact absurd rfl hne
  | cons c cs' =>
    obtain ⟨ch, c', hc'⟩ := List.exists_cons_of_ne_nil (hc c (by simp))
    subst hc'
    obtain ⟨t, ht⟩ := interSlash_cons_head ch c' cs'
    simp [ht]

theorem pathCleanGo_core (d : List Char) (cs : List (List Char)) (hne : cs ≠ [])
    (hc : ∀ c ∈ cs, simpleComp c = true)
    (hfilter : (splitSlash d).filter (fun c => !c.isEmpty && c ≠ ['.']) = cs)
    (hhead : d.head? ≠ some '/') (hd : d ≠ []) :
    pathCleanGo (String.mk d) = strOfComps cs := by
  have hmkne : (String.mk d : String) ≠ "" := by
    intro he
    exact hd (by simpa using congrArg String.data he)
  have hnodots : ∀ c ∈ cs, c ≠ dotdot := fun c hm => (simpleComp_props (hc c hm)).2.2.2
  have hresolve : resolveDots false [] cs = cs := by
    simpa using resolveDots_no_dots false [] cs hnodots
  have hdecide : decide (d.head? = some '/') = false := decide_eq_false hhead
  obtain ⟨c0, cs0, rfl⟩ := List.exists_cons_of_ne_nil hne
  simp only [pathCleanGo, if_neg hmkne]
  rw [if_neg hhead]
  simp only [hfilter, hdecide, hresolve]
  rfl

theorem filter_simple_self (cs : List (List Char)) (hc : ∀ c ∈ cs, simpleComp c = true) :
    cs.filter (fun c => !c.isEmpty && c ≠ ['.']) = cs := by
  rw [List.filter_eq_self]
  intro c hm
  obtain ⟨h1, _, h3, _⟩ := simpleComp_props (hc c hm)
  simp [h1, h3, List.isEmpty_iff]

theorem simpleComp_no_slash {cs : List (List Char)} (hc : ∀ c ∈ cs, simpleComp c = true) :
    ∀ c ∈ cs, c.contains '/' = false := fun c hm => (simpleComp_props (hc c hm)).2.1

theorem pathCleanGo_comps (cs : List (List Char)) (hne : cs ≠ [])
    (hc : ∀ c ∈ cs, simpleComp c = true) :
    pathCleanGo (strOfComps cs) = strOfComps cs := by
  obtain ⟨c, cs', rfl⟩ := List.exists_cons_of_ne_nil hne
  have hcsimple := hc c (List.mem_cons_self c cs')
  obtain ⟨ch, c', rfl⟩ := List.exists_cons_of_ne_nil (simpleComp_props hcsimple).1
  obtain ⟨t, ht⟩ := interSlash_cons_head ch c' cs'
  have hch : ¬ ch = '/' := (contains_cons_false (simpleComp_props hcsimple).2.1).1
  have h1 : (splitSlash (interSlash ((ch :: c') :: cs'))).filter
      (fun c => !c.isEmpty && c ≠ ['.']) = (ch :: c') :: cs' := by
    rw [splitSlash_interSlash _ (by simp) (simpleComp_no_slash hc)]
    exact filter_simple_self _ hc
  have h2 : (interSlash ((ch :: c') :: cs')).head? ≠ some '/' := by
    rw [ht]; simpa using hch
  have h3 : interSlash ((ch :: c') :: cs') ≠ [] := by rw [ht]; simp
  exact pathCleanGo_core (interSlash ((ch :: c') :: cs')) ((ch :: c') :: cs')
    (by simp) hc h1 h2 h3

theorem strOfComps_ne_empty (cs : List (List Char)) (hne : cs ≠ [])
    (hc : ∀ c ∈ cs, simpleComp c = true) : strOfComps cs ≠ "" := by
  intro he
  exact interSlash_ne_nil cs hne (fun c hm => (simpleComp_props (hc c hm)).1)
    (by simpa using congrArg String.data he)

theorem keyData_ne_nil {k : String} (hk : simpleKey k = true) : k.data ≠ [] := by
  obtain ⟨hkc, hkdata⟩ := simpleKey_props hk
  cases hkdata with
  | inl h => rw [h]; exact (simpleComp_props hkc).1
  | inr h => rw [h]; simp

theorem splitSlash_keyData {k : String} (hk : simpleKey k = true) :
    splitSlash k.data = [keyComp k] ∨ splitSlash k.data = [keyComp k, []] := by
  obtain ⟨hkc, hkdata⟩ := simpleKey_props hk
  have hns := (simpleComp_props hkc).2.1
  cases hkdata with
  | inl h => exact Or.inl (by rw [h]; exact splitSlash_single _ hns)
  | inr h =>
    refine Or.inr ?_
    rw [h]
    have : keyComp k ++ ['/'] = keyComp k ++ '/' :: [] := rfl
    rw [this, splitSlash_append_slash _ _ hns]
    rfl

theorem filter_key_tail {k : String} (hk : simpleKey k = true) :
    (splitSlash k.data).filter (fun c => !c.isEmpty && c ≠ ['.']) = [keyComp k] := by
  obtain ⟨hkc, _⟩ := simpleKey_props hk
  cases splitSlash_keyData hk with
  | inl h => rw [h]; exact filter_simple_self [keyComp k] (by simpa using hkc)
  | inr h =>
    rw [h]
    have := filter_simple_self [keyComp k] (by simpa using hkc)
    simp only [List.filter] at this ⊢
    simp_all

theorem pathJoinGo_step (ccs : List (List Char)) (k : String)
    (hccs : ∀ c ∈ ccs, simpleComp c = true) (hk : simpleKey k = true) :
    pathJoinGo (strOfComps ccs) k = strOfComps (ccs ++ [keyComp k]) := by
  obtain ⟨hkc, hkdata⟩ := simpleKey_props hk
  have hkne : k ≠ "" := by
    intro he
    exact keyData_ne_nil hk (by simpa using congrArg String.data he)
  obtain ⟨kch, kc', hkcs⟩ := List.exists_cons_of_ne_nil (simpleComp_props hkc).1
  have hkch : ¬ kch = '/' := by
    have := (simpleComp_props hkc).2.1
    rw [hkcs] at this
    exact (contains_cons_false this).1
  cases ccs with
  | nil =>
    have hjoin : pathJoinGo (strOfComps []) k = pathCleanGo k := by
      simp [pathJoinGo, strOfComps, interSlash, hkne]
    rw [hjoin]
    have hdk : k = String.mk k.data := rfl
    rw [hdk]
    refine pathCleanGo_core k.data [keyComp k] (by simp) (by simpa using hkc)
      (filter_key_tail hk) ?_ (keyData_ne_nil hk)
    · cases hkdata with
      | inl h => rw [h, hkcs]; simpa using hkch
      | inr h => rw [h, hkcs]; simpa using hkch
  | cons c ccs' =>
    have hcne : strOfComps (c :: ccs') ≠ "" :=
      strOfComps_ne_empty _ (by simp) hccs
    obtain ⟨ch, c', hcc⟩ :=
      List.exists_cons_of_ne_nil (simpleComp_props (hccs c (List.mem_cons_self c ccs'))).1
    have hch : ¬ ch = '/' := by
      have := (simpleComp_props (hccs c (List.mem_cons_self c ccs'))).2.1
      rw [hcc] at this
      exact (contains_cons_false this).1
    have hjoin : pathJoinGo (strOfComps (c :: ccs')) k =
        pathCleanGo (strOfComps (c :: ccs') ++ "/" ++ k) := by
      simp [pathJoinGo, hcne]
    rw [hjoin]
    have hdata : (strOfComps (c :: ccs') ++ "/" ++ k).data
        = interSlash (c :: ccs') ++ '/' :: k.data := by
      simp [String.data_append, strOfComps]
    have hmk : strOfComps (c :: ccs') ++ "/" ++ k
        = String.mk (interSlash (c :: ccs') ++ '/' :: k.data) := String.ext hdata
    rw [hmk]
    refine pathCleanGo_core _ (c :: ccs' ++ [keyComp k]) (by simp)
      ?_ ?_ ?_ ?_
    · intro x hx
      rcases List.mem_cons.mp hx with h | h
      · exact hccs x (by simp [h])
      · rcases List.mem_append.mp h with h2 | h2
        · exact hccs x (by simp [h2])
        · rw [List.mem_singleton.mp h2]; exact hkc
    · rw [splitSlash_interSlash_append _ _ (by simp) (simpleComp_no_slash hccs)]
      rw [List.filter_append]
      rw [filter_simple_self _ hccs, filter_key_tail hk]
    · obtain ⟨t, ht⟩ := interSlash_cons_head ch c' ccs'
      rw [hcc, ht]
      simpa using hch
    · intro habs
      have := congrArg List.length habs
      simp at this

theorem pathJoinGo_mount (m : String) (mcs fcs : List (List Char))
    (hmne : mcs ≠ []) (hmsimple : ∀ c ∈ mcs, simpleComp c = true)
    (hmdata : m.data = interSlash mcs ∨ m.data = interSlash mcs ++ ['/'])
    (hfne : fcs ≠ []) (hfsimple : ∀ c ∈ fcs, simpleComp c = true) :
    pathJoinGo m (strOfComps fcs) = strOfComps (mcs ++ fcs) := by
  obtain ⟨mc, mcs', rfl⟩ := List.exists_cons_of_ne_nil hmne
  obtain ⟨ch, c', hcc⟩ :=
    List.exists_cons_of_ne_nil (simpleComp_props (hmsimple mc (List.mem_cons_self mc mcs'))).1
  have hch : ¬ ch = '/' := by
    have := (simpleComp_props (hmsimple mc (List.mem_cons_self mc mcs'))).2.1
    rw [hcc] at this
    exact (contains_cons_false this).1
  obtain ⟨t, ht⟩ := interSlash_cons_head ch c' mcs'
  have hmne' : m ≠ "" := by
    intro he
    have hd : m.data = [] := by simpa using congrArg String.data he
    cases hmdata with
    | inl h => rw [hd, hcc, ht] at h; exact absurd h.symm (by simp)
    | inr h => rw [hd] at h; exact absurd h.symm (by simp)
  have hjoin : pathJoinGo m (strOfComps fcs) =
      pathCleanGo (m ++ "/" ++ strOfComps fcs) := by
    simp [pathJoinGo, hmne']
  rw [hjoin]
  have hsimpleall : ∀ c ∈ (mc :: mcs') ++ fcs, simpleComp c = true := by
    intro x hx
    rcases List.mem_append.mp hx with h | h
    · exact hmsimple x h
    · exact hfsimple x h
  cases hmdata with
  | inl h =>
    have hdata : (m ++ "/" ++ strOfComps fcs).data
        = interSlash (mc :: mcs') ++ '/' :: interSlash fcs := by
      simp [String.data_append, strOfComps, h]
    rw [String.ext hdata]
    refine pathCleanGo_core _ ((mc :: mcs') ++ fcs) (by simp) hsimpleall ?_ ?_ ?_
    · rw [splitSlash_interSlash_append _ _ (by simp) (simpleComp_no_slash hmsimple)]
      rw [splitSlash_interSlash _ hfne (simpleComp_no_slash hfsimple)]
      exact filter_simple_self _ hsimpleall
    · rw [hcc, ht]
      simpa using hch
    · intro habs
      have := congrArg List.length habs
      simp at this
  | inr h =>
    have hdata : (m ++ "/" ++ strOfComps fcs).data
        = interSlash (mc :: mcs') ++ '/' :: ('/' :: interSlash fcs) := by
      simp [String.data_append, strOfComps, h]
    rw [String.ext hdata]
    refine pathCleanGo_core _ ((mc :: mcs') ++ fcs) (by simp) hsimpleall ?_ ?_ ?_
    · rw [splitSlash_interSlash_append _ _ (by simp) (simpleComp_no_slash hmsimple)]
      have hsplit2 : splitSlash ('/' :: interSlash fcs) = [] :: fcs := by
        have : splitSlash ('/' :: interSlash fcs) = [] :: splitSlash (interSlash fcs) := by
          simp [splitSlash]
        rw [this, splitSlash_interSlash _ hfne (simpleComp_no_slash hfsimple)]
      rw [hsplit2, List.filter_append]
      rw [filter_simple_self _ hmsimple]
      have : ([] :: fcs).filter (fun c => !c.isEmpty && c ≠ ['.']) = fcs := by
        rw [show ([] :: fcs).filter (fun c => !c.isEmpty && c ≠ ['.'])
            = fcs.filter (fun c => !c.isEmpty && c ≠ ['.']) from by simp [List.filter]]
        exact filter_simple_self _ hfsimple
      rw [this]
    · rw [hcc, ht]
      simpa using hch
    · intro habs
      have := congrArg List.length habs
      simp at this

theorem simpleMount_spec (m : String) (hm : simpleMount m = true) :
    mountComps m ≠ [] ∧ (∀ c ∈ mountComps m, simpleComp c = true) ∧
      (m.data = interSlash (mountComps m) ∨
        m.data = interSlash (mountComps m) ++ ['/']) := by
  have hparts := interSlash_splitSlash m.data
  have hpne := splitSlash_ne_nil m.data
  by_cases hlast : (splitSlash m.data).getLast? = some []
  · have hcore : (!(splitSlash m.data).dropLast.isEmpty
        && (splitSlash m.data).dropLast.all simpleComp) = true := by
      simpa [simpleMount, hlast] using hm
    rw [Bool.and_eq_true] at hcore
    have hne : (splitSlash m.data).dropLast ≠ [] := by
      intro he
      rw [he] at hcore
      simp at hcore
    have hall : ∀ c ∈ (splitSlash m.data).dropLast, simpleComp c = true :=
      List.all_eq_true.mp hcore.2
    have hlast' : (splitSlash m.data).getLast hpne = [] := by
      have := List.getLast?_eq_getLast (splitSlash m.data) hpne
      rw [this] at hlast
      exact (Option.some.injEq _ _).mp hlast.symm |>.symm
    have hdecomp : (splitSlash m.data).dropLast ++ [[]] = splitSlash m.data := by
      conv_rhs => rw [← List.dropLast_append_getLast hpne]
      rw [hlast']
    have hmc : mountComps m = (splitSlash m.data).dropLast := by
      rw [mountComps, ← hdecomp, List.filter_append]
      have h1 : ((splitSlash m.data).dropLast).filter (fun c => !c.isEmpty)
          = (splitSlash m.data).dropLast := by
        rw [List.filter_eq_self]
        intro c hmem
        simpa [List.isEmpty_iff] using (simpleComp_props (hall c hmem)).1
      rw [h1]
      simp
    refine ⟨by rw [hmc]; exact hne, by rw [hmc]; exact hall, Or.inr ?_⟩
    rw [hmc]
    calc m.data = interSlash (splitSlash m.data) := hparts.symm
      _ = interSlash ((splitSlash m.data).dropLast ++ [[]]) := by rw [hdecomp]
      _ = interSlash ((splitSlash m.data).dropLast) ++ ['/'] :=
          interSlash_append_empty _ hne
  · have hcore : (!(splitSlash m.data).isEmpty
        && (splitSlash m.data).all simpleComp) = true := by
      simpa [simpleMount, hlast] using hm
    rw [Bool.and_eq_true] at hcore
    have hall : ∀ c ∈ splitSlash m.data, simpleComp c = true :=
      List.all_eq_true.mp hcore.2
    have hmc : mountComps m = splitSlash m.data := by
      rw [mountComps, List.filter_eq_self]
      intro c hmem
      simpa [List.isEmpty_iff] using (simpleComp_props (hall c hmem)).1
    exact ⟨by rw [hmc]; exact hpne, by rw [hmc]; exact hall,
      Or.inl (by rw [hmc, hparts])⟩

mutual

theorem traverseNode_leaves (kvVersion mount : String) (mcs ccs : List (List Char))
    (n : Node)
    (hv : kvVersion = "1" ∨ kvVersion = "2")
    (hmne : mcs ≠ []) (hmsimple : ∀ c ∈ mcs, simpleComp c = true)
    (hmdata : mount.data = interSlash mcs ∨ mount.data = interSlash mcs ++ ['/'])
    (hccs : ∀ c ∈ ccs, simpleComp c = true)
    (hn : simpleOkNode n = true) :
    traverseNode kvVersion mount (strOfComps ccs) n
      = ([], .ok ((leafCompsNode n).map (fun cs => strOfComps (mcs ++ ccs ++ cs)))) := by
  cases n with
  | dir es =>
    have hes : simpleOkEntries es = true := by
      simpa [simpleOkNode] using hn
    have hunfold : traverseNode kvVersion mount (strOfComps ccs) (.dir es)
        = traverseEntries kvVersion mount (strOfComps ccs) es := by
      rw [traverseNode]
      rw [if_pos hv]
    rw [hunfold,
      traverseEntries_leaves kvVersion mount mcs ccs es hv hmne hmsimple hmdata hccs hes]
    rw [leafCompsNode]
  | notFound => simp [simpleOkNode] at hn
  | srvErr m => simp [simpleOkNode] at hn

theorem traverseEntries_leaves (kvVersion mount : String) (mcs ccs : List (List Char))
    (es : Entries)
    (hv : kvVersion = "1" ∨ kvVersion = "2")
    (hmne : mcs ≠ []) (hmsimple : ∀ c ∈ mcs, simpleComp c = true)
    (hmdata : mount.data = interSlash mcs ∨ mount.data = interSlash mcs ++ ['/'])
    (hccs : ∀ c ∈ ccs, simpleComp c = true)
    (hes : simpleOkEntries es = true) :
    traverseEntries kvVersion mount (strOfComps ccs) es
      = ([], .ok ((leafCompsEntries es).map (fun cs => strOfComps (mcs ++ ccs ++ cs)))) := by
  cases es with
  | nil => rw [traverseEntries, leafCompsEntries]; rfl
  | cons k child rest =>
    rw [simpleOkEntries, Bool.and_eq_true, Bool.and_eq_true] at hes
    obtain ⟨⟨hk, hcond⟩, hrest⟩ := hes
    have hccs' : ∀ c ∈ ccs ++ [keyComp k], simpleComp c = true := by
      intro x hx
      rcases List.mem_append.mp hx with h | h
      · exact hccs x h
      · rw [List.mem_singleton.mp h]; exact (simpleKey_props hk).1
    have hstep := pathJoinGo_step ccs k hccs hk
    have hrestIH := traverseEntries_leaves kvVersion mount mcs ccs rest
      hv hmne hmsimple hmdata hccs hrest
    by_cases hslash : hasSuffixGo k "/" = true
    · have hchild : simpleOkNode child = true := by
        rw [if_pos hslash] at hcond
        exact hcond
      have hchildIH := traverseNode_leaves kvVersion mount mcs (ccs ++ [keyComp k]) child
        hv hmne hmsimple hmdata hccs' hchild
      rw [← hstep] at hchildIH
      rw [traverseEntries, hstep, ← hstep, if_pos hslash, hchildIH, hrestIH]
      rw [leafCompsEntries, if_pos hslash]
      simp only [List.nil_append, List.map_append, List.map_map]
      have hfun : ((fun cs => strOfComps (mcs ++ ccs ++ cs)) ∘ fun cs => keyComp k :: cs)
          = (fun cs => strOfComps (mcs ++ (ccs ++ [keyComp k]) ++ cs)) := by
        funext cs
        simp [Function.comp, List.append_assoc]
      rw [hfun]
    · have hslash' : hasSuffixGo k "/" = false := by simpa using hslash
      have hmountJoin := pathJoinGo_mount mount mcs (ccs ++ [keyComp k])
        hmne hmsimple hmdata (by simp) hccs'
      rw [traverseEntries, hstep, if_neg (by simp [hslash']), hrestIH, hmountJoin]
      rw [leafCompsEntries, if_neg (by simp [hslash'])]
      simp [List.append_assoc]

end

theorem traverseEntries_cons (kvVersion mount cur k : String) (child : Node)
    (rest : Entries) :
    traverseEntries kvVersion mount cur (.cons k child rest)
      = if hasSuffixGo k "/" = true then
          match traverseNode kvVersion mount (pathJoinGo cur k) child with
          | (logs, .error e) => (logs, .error e)
          | (logs, .ok l) =>
            match traverseEntries kvVersion mount cur rest with
            | (logs2, .error e) => (logs ++ logs2, .error e)
            | (logs2, .ok l2) => (logs ++ logs2, .ok (l ++ l2))
        else
          match traverseEntries kvVersion mount cur rest with
          | (logs2, .error e) => (logs2, .error e)
          | (logs2, .ok l2) =>
            (logs2, .ok (pathJoinGo mount (pathJoinGo cur k) :: l2)) := by
  rw [traverseEntries]

theorem traverseNode_notFound (kvVersion mount cur : String)
    (hv : kvVersion = "1" ∨ kvVersion = "2") :
    traverseNode kvVersion mount cur .notFound = ([log404 cur], .ok []) := by
  rw [traverseNode, if_pos hv]

theorem traverseNode_srvErr (kvVersion mount cur msg : String)
    (hv : kvVersion = "1" ∨ kvVersion = "2") :
    traverseNode kvVersion mount cur (.srvErr msg)
      = ([], .error (listFailMsg kvVersion cur msg)) := by
  rw [traverseNode, if_pos hv]

theorem traverseEntries_notFound_head (kvVersion mount cur k : String) (rest : Entries)
    (hv : kvVersion = "1" ∨ kvVersion = "2") (hk : hasSuffixGo k "/" = true) :
    traverseEntries kvVersion mount cur (.cons k .notFound rest)
      = (log404 (pathJoinGo cur k) :: (traverseEntries kvVersion mount cur rest).1,
         (traverseEntries kvVersion mount cur rest).2) := by
  rw [traverseEntries_cons, if_pos hk, traverseNode_notFound kvVersion mount _ hv]
  rcases hrest : traverseEntries kvVersion mount cur rest with ⟨l2, r2⟩
  cases r2 with
  | error e => rfl
  | ok l => simp

theorem traverseEntries_notFound_mid (kvVersion mount cur k : String)
    (hv : kvVersion = "1" ∨ kvVersion = "2") (hk : hasSuffixGo k "/" = true) :
    ∀ (pre post : Entries),
    (traverseEntries kvVersion mount cur (appendEntries pre (.cons k .notFound post))).2
      = (traverseEntries kvVersion mount cur (appendEntries pre post)).2
  | .nil, post => by
    rw [appendEntries, appendEntries,
      traverseEntries_notFound_head kvVersion mount cur k post hv hk]
  | .cons k' c' rest', post => by
    have ih := traverseEntries_notFound_mid kvVersion mount cur k hv hk rest' post
    rw [appendEntries, appendEntries, traverseEntries_cons, traverseEntries_cons]
    by_cases hk' : hasSuffixGo k' "/" = true
    · rw [if_pos hk', if_pos hk']
      rcases hnode : traverseNode kvVersion mount (pathJoinGo cur k') c' with ⟨lN, rN⟩
      cases rN with
      | error e => rfl
      | ok l =>
        rcases hA : traverseEntries kvVersion mount cur
            (appendEntries rest' (.cons k .notFound post)) with ⟨lA, rA⟩
        rcases hB : traverseEntries kvVersion mount cur (appendEntries rest' post)
          with ⟨lB, rB⟩
        have hAB : rA = rB := by
          have := ih
          rw [hA, hB] at this
          exact this
        subst hAB
        cases rA with
        | error e => rfl
        | ok la => rfl
    · rw [if_neg hk', if_neg hk']
      rcases hA : traverseEntries kvVersion mount cur
          (appendEntries rest' (.cons k .notFound post)) with ⟨lA, rA⟩
      rcases hB : traverseEntries kvVersion mount cur (appendEntries rest' post)
        with ⟨lB, rB⟩
      have hAB : rA = rB := by
        have := ih
        rw [hA, hB] at this
        exact this
      subst hAB
      cases rA with
      | error e => rfl
      | ok la => rfl

theorem traverseEntries_srvErr_abort (kvVersion mount cur k msg : String) (post : Entries)
    (hv : kvVersion = "1" ∨ kvVersion = "2") (hk : hasSuffixGo k "/" = true) :
    ∀ (pre : Entries) (leaves : List String),
    (traverseEntries kvVersion mount cur pre).2 = .ok leaves →
    (traverseEntries kvVersion mount cur (appendEntries pre (.cons k (.srvErr msg) post))).2
      = .error (listFailMsg kvVersion (pathJoinGo cur k) msg)
  | .nil, leaves, _ => by
    rw [appendEntries, traverseEntries_cons, if_pos hk,
      traverseNode_srvErr kvVersion mount _ msg hv]
  | .cons k' c' rest', leaves, hok => by
    rw [traverseEntries_cons] at hok
    rw [appendEntries, traverseEntries_cons]
    by_cases hk' : hasSuffixGo k' "/" = true
    · rw [if_pos hk'] at hok ⊢
      rcases hnode : traverseNode kvVersion mount (pathJoinGo cur k') c' with ⟨lN, rN⟩
      rw [hnode] at hok
      cases rN with
      | error e => simp at hok
      | ok l =>
        rcases hrest : traverseEntries kvVersion mount cur rest' with ⟨lR, rR⟩
        rw [hrest] at hok
        cases rR with
        | error e => simp at hok
        | ok lr =>
          have ih := traverseEntries_srvErr_abort kvVersion mount cur k msg post hv hk
            rest' lr (by rw [hrest])
          rcases hA : traverseEntries kvVersion mount cur
              (appendEntries rest' (.cons k (.srvErr msg) post)) with ⟨lA, rA⟩
          rw [hA] at ih
          simp only at ih
          rw [ih]
    · rw [if_neg hk'] at hok ⊢
      rcases hrest : traverseEntries kvVersion mount cur rest' with ⟨lR, rR⟩
      rw [hrest] at hok
      cases rR with
      | error e => simp at hok
      | ok lr =>
        have ih := traverseEntries_srvErr_abort kvVersion mount cur k msg post hv hk
          rest' lr (by rw [hrest])
        rcases hA : traverseEntries kvVersion mount cur
            (appendEntries rest' (.cons k (.srvErr msg) post)) with ⟨lA, rA⟩
        rw [hA] at ih
        simp only at ih
        rw [ih]

/-! ## Mount resolution lemmas -/

theorem charUtf8Len_pos (c : Char) : 0 < charUtf8Len c := by
  rw [charUtf8Len]
  split
  · omega
  · split
    · omega
    · split <;> omega

theorem lenGo_eq_zero {s : String} (h : lenGo s = 0) : s = "" := by
  cases hs : s.data with
  | nil => exact String.ext (by simp [hs])
  | cons c rest =>
    rw [lenGo, hs] at h
    simp only [List.map_cons, List.sum_cons] at h
    have := charUtf8Len_pos c
    omega

theorem hasPrefixGo_empty (P : String) : hasPrefixGo P "" = true := by
  show List.isPrefixOf "".data P.data = true
  cases h : P.data <;> rfl

theorem bmFold_cases (P : String) (l : List (String × MountInfo)) :
    ∀ b, List.foldl (bmStep P) b l = b ∨
      ∃ mi, (List.foldl (bmStep P) b l, mi) ∈ l ∧
        hasPrefixGo P (List.foldl (bmStep P) b l) = true := by
  induction l with
  | nil => exact fun b => Or.inl rfl
  | cons pr rest ih =>
    intro b
    rw [List.foldl_cons]
    rcases ih (bmStep P b pr) with h | h
    · rw [h]
      by_cases hc : (hasPrefixGo P pr.1 && decide (lenGo b < lenGo pr.1)) = true
      · right
        have hc2 := hc
        rw [Bool.and_eq_true] at hc2
        refine ⟨pr.2, ?_, ?_⟩
        · rw [bmStep, if_pos hc, Prod.mk.eta]
          exact List.mem_cons_self pr rest
        · rw [bmStep, if_pos hc]
          exact hc2.1
      · left
        rw [bmStep, if_neg hc]
    · obtain ⟨mi, hmem, hpre⟩ := h
      exact Or.inr ⟨mi, List.mem_cons_of_mem pr hmem, hpre⟩

theorem bmFold_le (P : String) (l : List (String × MountInfo)) :
    ∀ b, lenGo b ≤ lenGo (List.foldl (bmStep P) b l) := by
  induction l with
  | nil => exact fun b => Nat.le_refl _
  | cons pr rest ih =>
    intro b
    rw [List.foldl_cons]
    refine Nat.le_trans ?_ (ih (bmStep P b pr))
    rw [bmStep]
    by_cases hc : (hasPrefixGo P pr.1 && decide (lenGo b < lenGo pr.1)) = true
    · rw [if_pos hc]
      rw [Bool.and_eq_true] at hc
      have := of_decide_eq_true hc.2
      omega
    · rw [if_neg hc]

theorem bmFold_max (P : String) (l : List (String × MountInfo)) :
    ∀ b pr, pr ∈ l → hasPrefixGo P pr.1 = true →
      lenGo pr.1 ≤ lenGo (List.foldl (bmStep P) b l) := by
  induction l with
  | nil => intro b pr hmem; simp at hmem
  | cons q rest ih =>
    intro b pr hmem hpre
    rw [List.foldl_cons]
    rcases List.mem_cons.mp hmem with h | h
    · subst h
      refine Nat.le_trans ?_ (bmFold_le P rest (bmStep P b pr))
      rw [bmStep]
      by_cases hlt : lenGo b < lenGo pr.1
      · rw [if_pos (by simp [hpre, hlt])]
      · by_cases hc : (hasPrefixGo P pr.1 && decide (lenGo b < lenGo pr.1)) = true
        · rw [if_pos hc]
        · rw [if_neg hc]
          omega
    · exact ih (bmStep P b q) pr h hpre

theorem bmFold_no_match (P : String) (l : List (String × MountInfo))
    (h : ∀ pr ∈ l, hasPrefixGo P pr.1 = false) :
    ∀ b, List.foldl (bmStep P) b l = b := by
  induction l with
  | nil => exact fun b => rfl
  | cons q rest ih =>
    intro b
    rw [List.foldl_cons]
    have hq : hasPrefixGo P q.1 = false := h q (List.mem_cons_self q rest)
    have hstep : bmStep P b q = b := by
      rw [bmStep, if_neg]
      simp [hq]
    rw [hstep]
    exact ih (fun pr hm => h pr (List.mem_cons_of_mem q hm)) b

theorem lookupMount_nodup (mounts : List (String × MountInfo)) (k : String)
    (mi : MountInfo) (hnd : (mounts.map Prod.fst).Nodup) (hmem : (k, mi) ∈ mounts) :
    lookupMount mounts k = mi := by
  induction mounts with
  | nil => simp at hmem
  | cons q rest ih =>
    rcases List.mem_cons.mp hmem with h | h
    · rw [← h]
      rw [lookupMount]
      simp [List.find?]
    · have hk : k ∈ rest.map Prod.fst := List.mem_map.mpr ⟨(k, mi), h, rfl⟩
      have hq : q.1 ≠ k := by
        intro he
        rw [List.map_cons, List.nodup_cons] at hnd
        exact hnd.1 (he ▸ hk)
      rw [lookupMount]
      simp only [List.find?]
      rw [show (decide (q.1 = k)) = false from decide_eq_false hq]
      have := ih (by rw [List.map_cons, List.nodup_cons] at hnd; exact hnd.2) h
      rw [lookupMount] at this
      exact this

theorem lookupMount_not_mem (mounts : List (String × MountInfo)) (k : String)
    (h : ∀ pr ∈ mounts, pr.1 ≠ k) : lookupMount mounts k = MountInfo.zero := by
  rw [lookupMount]
  have : mounts.find? (fun pr => pr.1 = k) = none := by
    rw [List.find?_eq_none]
    intro pr hm
    simp [h pr hm]
  rw [this]
  rfl

theorem findMountForSecret_ok (P : String) (mounts : List (String × MountInfo)) :
    findMountForSecret true P mounts
      = .ok (lookupMount mounts (bestMountMatch P mounts),
          trimSuffixGo (trimPrefixGo P (bestMountMatch P mounts)) "/") := rfl

theorem isPrefixOf_nil_left (l : List Char) : List.isPrefixOf [] l = true := by
  cases l <;> rfl

/-! ## Claim C3 -/

/-- C3: for every secret path and mount set in which at least one mount path
is a string prefix of the path, findMountForSecret returns the mount whose
path is the longest such prefix, and the relative path is the secret path
with that prefix stripped and a trailing separator removed; in particular,
with mounts a/ and a/b/, path a/b/c resolves to mount a/b/ with relative
path c. -/
theorem C3_longest_mount_resolution (P : String) (mounts : List (String × MountInfo))
    (hnd : (mounts.map Prod.fst).Nodup)
    (hex : ∃ pr ∈ mounts, hasPrefixGo P pr.1 = true) :
    (∃ best mi, (best, mi) ∈ mounts ∧ hasPrefixGo P best = true ∧
      (∀ pr ∈ mounts, hasPrefixGo P pr.1 = true → lenGo pr.1 ≤ lenGo best) ∧
      findMountForSecret true P mounts
        = .ok (mi, trimSuffixGo (trimPrefixGo P best) "/"))
    ∧ findMountForSecret true "a/b/c"
        [("a/", ⟨"a/", "1"⟩), ("a/b/", ⟨"a/b/", "2"⟩)]
        = .ok (⟨"a/b/", "2"⟩, "c") := by
  refine ⟨?_, by rfl⟩
  obtain ⟨pr0, hmem0, hpre0⟩ := hex
  rcases bmFold_cases P mounts "" with h | h
  · have hmax0 := bmFold_max P mounts "" pr0 hmem0 hpre0
    rw [h] at hmax0
    have hlen : lenGo "" = 0 := rfl
    have hpr0 : pr0.1 = "" := lenGo_eq_zero (Nat.le_zero.mp (hlen ▸ hmax0))
    have hmem0' : ("", pr0.2) ∈ mounts := by
      rw [← hpr0, Prod.mk.eta]; exact hmem0
    refine ⟨"", pr0.2, hmem0', hasPrefixGo_empty P, ?_, ?_⟩
    · intro pr hm hp
      have := bmFold_max P mounts "" pr hm hp
      rw [h] at this
      exact this
    · rw [findMountForSecret_ok]
      have hbm : bestMountMatch P mounts = "" := h
      rw [hbm, lookupMount_nodup mounts "" pr0.2 hnd hmem0']
  · obtain ⟨mi, hmem, hpre⟩ := h
    refine ⟨List.foldl (bmStep P) "" mounts, mi, hmem, hpre, ?_, ?_⟩
    · intro pr hm hp
      exact bmFold_max P mounts "" pr hm hp
    · rw [findMountForSecret_ok]
      rw [show bestMountMatch P mounts = List.foldl (bmStep P) "" mounts from rfl]
      rw [lookupMount_nodup mounts _ mi hnd hmem]

/-- Witness for the C3 theorem at the scenario input. -/
theorem C3_longest_mount_resolution_witness :
    (∃ best mi,
      (best, mi) ∈ [("a/", (⟨"a/", "1"⟩ : MountInfo)), ("a/b/", ⟨"a/b/", "2"⟩)] ∧
      hasPrefixGo "a/b/c" best = true ∧
      (∀ pr ∈ [("a/", (⟨"a/", "1"⟩ : MountInfo)), ("a/b/", ⟨"a/b/", "2"⟩)],
        hasPrefixGo "a/b/c" pr.1 = true → lenGo pr.1 ≤ lenGo best) ∧
      findMountForSecret true "a/b/c"
          [("a/", ⟨"a/", "1"⟩), ("a/b/", ⟨"a/b/", "2"⟩)]
        = .ok (mi, trimSuffixGo (trimPrefixGo "a/b/c" best) "/"))
    ∧ findMountForSecret true "a/b/c"
        [("a/", ⟨"a/", "1"⟩), ("a/b/", ⟨"a/b/", "2"⟩)]
        = .ok (⟨"a/b/", "2"⟩, "c") :=
  C3_longest_mount_resolution "a/b/c"
    [("a/", ⟨"a/", "1"⟩), ("a/b/", ⟨"a/b/", "2"⟩)] (by decide) (by decide)

/-! ## Claim C5 -/

/-- C5 counterexample: with mount set containing only a/ and secret path
b/c, no mount path is a prefix, yet findMountForSecret signals no NotFound
condition at all: it returns ok with the zero-value MountInfo and the
unresolved path. -/
theorem C5_counterexample :
    findMountForSecret true "b/c" [("a/", ⟨"a/", "1"⟩)]
      = .ok (MountInfo.zero, "b/c") := rfl

/-- C5 amended: when no mount path prefixes the secret path, resolution
returns ok with the zero-value MountInfo and no error, and the caller still
skips exactly that one secret — through the unsupported-version default on
the zero MountInfo's empty version — while the batch loop continues with
the remaining entries. -/
theorem C5_amended (P : String) (mounts : List (String × MountInfo))
    (payload : GoEntries)
    (writeV1 writeV2 : String → String → GoEntries → Except String Unit)
    (h : ∀ pr ∈ mounts, hasPrefixGo P pr.1 = false) :
    findMountForSecret true P mounts = .ok (MountInfo.zero, trimSuffixGo P "/")
    ∧ (createSecretStep true mounts writeV1 writeV2 P payload).1
        = .skippedUnsupported ""
    ∧ ∀ rest, (createLoop true mounts writeV1 writeV2 ((P, payload) :: rest)).1
        = (P, .skippedUnsupported "") :: (createLoop true mounts writeV1 writeV2 rest).1 := by
  have hbm : bestMountMatch P mounts = "" := bmFold_no_match P mounts h ""
  have hlk : lookupMount mounts "" = MountInfo.zero := by
    refine lookupMount_not_mem mounts "" ?_
    intro pr hm he
    have := h pr hm
    rw [he, hasPrefixGo_empty] at this
    exact Bool.true_eq_false.mp this
  have htrim : trimPrefixGo P "" = P := by
    rw [trimPrefixGo, if_pos (isPrefixOf_nil_left P.data)]
    show String.mk (P.data.drop 0) = P
    rw [List.drop_zero]
  have hfind : findMountForSecret true P mounts
      = .ok (MountInfo.zero, trimSuffixGo P "/") := by
    rw [findMountForSecret_ok, hbm, hlk, htrim]
  have hstep : (createSecretStep true mounts writeV1 writeV2 P payload).1
      = .skippedUnsupported "" := by
    rw [createSecretStep, hfind]
    rfl
  refine ⟨hfind, hstep, ?_⟩
  intro rest
  rw [createLoop]
  rcases hs : createSecretStep true mounts writeV1 writeV2 P payload with ⟨o, l⟩
  have ho : o = .skippedUnsupported "" := by rw [hs] at hstep; exact hstep
  rcases hrec : createLoop true mounts writeV1 writeV2 rest with ⟨os, ls⟩
  rw [ho]

/-- Witness for the amended C5 theorem. -/
theorem C5_amended_witness :
    findMountForSecret true "b/c" [("a/", ⟨"a/", "1"⟩)]
      = .ok (MountInfo.zero, trimSuffixGo "b/c" "/")
    ∧ (createSecretStep true [("a/", ⟨"a/", "1"⟩)] createWriteOkFn createWriteOkFn
        "b/c" payloadKV).1 = .skippedUnsupported ""
    ∧ ∀ rest, (createLoop true [("a/", ⟨"a/", "1"⟩)] createWriteOkFn createWriteOkFn
        (("b/c", payloadKV) :: rest)).1
      = ("b/c", .skippedUnsupported "")
          :: (createLoop true [("a/", ⟨"a/", "1"⟩)] createWriteOkFn createWriteOkFn rest).1 :=
  C5_amended "b/c" [("a/", ⟨"a/", "1"⟩)] payloadKV createWriteOkFn createWriteOkFn
    (by decide)

/-! ## Claim C4 -/

/-- C4: the claim is right and the code wrong (code bug): the documentation
of GetSecretEngines states an empty version must be treated as KV v1, but
the CreateSecrets switch sends the empty version to the unsupported-version
default, logging and skipping the secret instead of writing it as v1.  This
theorem evaluates the pipeline at the failing input: one mount without an
options map and one secret under it. -/
theorem C4_empty_version_skipped :
    (CreateSecrets true (.ok mountsNoOpts) createWriteOkFn createWriteOkFn
        [("secrets/app", payloadKV)]).outcomes
      = [("secrets/app", .skippedUnsupported "")]
    ∧ (CreateSecrets true (.ok mountsNoOpts) createWriteOkFn createWriteOkFn
        [("secrets/app", payloadKV)]).logs
      = [.logError "unsupported KV version: version= path=secrets/app"] :=
  ⟨rfl, rfl⟩

/-! ## Claim C10 -/

/-- C10 counterexample: a mount entry whose options map merely lacks the
version field does not panic: GetSourceMountVersion returns ok with the
string form of nil, refuting the version-field case of the claim. -/
theorem C10_counterexample :
    GetSourceMountVersion (.ok mountsNoVer) "secrets" = .ok "<nil>" := rfl

/-- C10 amended: GetSourceMountVersion panics through its unchecked type
assertions when the normalized source mount is absent from the listing, or
when the mount entry has no options map; when only the version field is
missing it does not panic and returns the string form of nil (which callers
then treat as an unsupported version). -/
theorem C10_amended :
    (∀ (data : GoEntries) (sm : String),
      data.findVal (normalizeMount sm) = none →
      GetSourceMountVersion (.ok data) sm = .error assertMapFailMsg)
    ∧ (∀ (data entry : GoEntries) (sm : String),
      data.findVal (normalizeMount sm) = some (.vmap entry) →
      entry.findVal "options" = none →
      GetSourceMountVersion (.ok data) sm = .error assertMapFailMsg)
    ∧ (∀ (data entry opts : GoEntries) (sm : String),
      data.findVal (normalizeMount sm) = some (.vmap entry) →
      entry.findVal "options" = some (.vmap opts) →
      opts.findVal "version" = none →
      GetSourceMountVersion (.ok data) sm = .ok "<nil>") := by
  refine ⟨?_, ?_, ?_⟩
  · intro data sm h
    rw [GetSourceMountVersion]
    simp only [goIndex, h, Option.getD]
    rfl
  · intro data entry sm h1 h2
    rw [GetSourceMountVersion]
    simp [goIndex, h1, h2, Option.getD, assertMapGo]
  · intro data entry opts sm h1 h2 h3
    rw [GetSourceMountVersion]
    simp [goIndex, h1, h2, h3, Option.getD, assertMapGo, sprintfAny]

/-- Witness for the amended C10 theorem at concrete listings. -/
theorem C10_amended_witness :
    GetSourceMountVersion (.ok .nil) "secrets" = .error assertMapFailMsg
    ∧ GetSourceMountVersion (.ok mountsNoOpts) "secrets" = .error assertMapFailMsg
    ∧ GetSourceMountVersion (.ok mountsNoVer) "other" = .error assertMapFailMsg :=
  ⟨C10_amended.1 .nil "secrets" rfl,
   C10_amended.2.1 mountsNoOpts .nil "secrets" rfl rfl,
   C10_amended.1 mountsNoVer "other" rfl⟩

/-! ## Claim C7 -/

/-- C7: for every traversal of a simple well-formed tree with a recognized
version, every namespace key (trailing separator) is recursed into and never
appears in the output, and every leaf key is emitted as the mount path
joined with the current prefix joined with the key: the output is exactly
the leaf enumeration of the tree prefixed by the mount components; in the
scenario, mount secrets/ over keys x and y/ -> z yields exactly secrets/x
and secrets/y/z. -/
theorem C7_traversal_yields_leaves (kvVersion mount : String) (tree : Node)
    (hv : kvVersion = "1" ∨ kvVersion = "2") (hm : simpleMount mount = true)
    (ht : simpleOkNode tree = true) :
    (traverseNode kvVersion mount "" tree
      = ([], .ok ((leafCompsNode tree).map
          (fun cs => strOfComps (mountComps mount ++ cs)))))
    ∧ traverseNode "1" "secrets/" "" treeScenario = ([], .ok ["secrets/x", "secrets/y/z"])
    ∧ traverseNode "2" "secrets/" "" treeScenario
        = ([], .ok ["secrets/x", "secrets/y/z"]) := by
  refine ⟨?_, by rfl, by rfl⟩
  obtain ⟨hmne, hmsimple, hmdata⟩ := simpleMount_spec mount hm
  have hmain := traverseNode_leaves kvVersion mount (mountComps mount) [] tree
    hv hmne hmsimple hmdata (by simp) ht
  have hempty : strOfComps [] = "" := rfl
  rw [hempty] at hmain
  simpa [List.append_nil] using hmain

/-- Witness for the C7 theorem at the scenario tree. -/
theorem C7_traversal_yields_leaves_witness :
    (traverseNode "1" "secrets/" "" treeScenario
      = ([], .ok ((leafCompsNode treeScenario).map
          (fun cs => strOfComps (mountComps "secrets/" ++ cs)))))
    ∧ traverseNode "1" "secrets/" "" treeScenario = ([], .ok ["secrets/x", "secrets/y/z"])
    ∧ traverseNode "2" "secrets/" "" treeScenario
        = ([], .ok ["secrets/x", "secrets/y/z"]) :=
  C7_traversal_yields_leaves "1" "secrets/" treeScenario (Or.inl rfl) rfl rfl

/-! ## Claim C8 -/

/-- C8: a 404 while listing a namespace key terminates only that branch —
the 404 is logged and the leaves collected from all other branches are
unchanged — while any other listing error aborts the whole traversal with a
wrapped error that contains the failing path. -/
theorem C8_notFound_isolated_error_aborts (kvVersion mount cur k msg : String)
    (pre post rest : Entries) (leaves : List String)
    (hv : kvVersion = "1" ∨ kvVersion = "2") (hk : hasSuffixGo k "/" = true) :
    ((traverseEntries kvVersion mount cur
        (appendEntries pre (.cons k .notFound post))).2
      = (traverseEntries kvVersion mount cur (appendEntries pre post)).2)
    ∧ (traverseEntries kvVersion mount cur (.cons k .notFound rest)
        = (log404 (pathJoinGo cur k) :: (traverseEntries kvVersion mount cur rest).1,
           (traverseEntries kvVersion mount cur rest).2))
    ∧ ((traverseEntries kvVersion mount cur pre).2 = .ok leaves →
       (traverseEntries kvVersion mount cur
           (appendEntries pre (.cons k (.srvErr msg) post))).2
         = .error (listFailMsg kvVersion (pathJoinGo cur k) msg)
       ∧ ∃ a b, listFailMsg kvVersion (pathJoinGo cur k) msg
           = a ++ pathJoinGo cur k ++ b) := by
  refine ⟨traverseEntries_notFound_mid kvVersion mount cur k hv hk pre post,
    traverseEntries_notFound_head kvVersion mount cur k rest hv hk,
    fun hok => ⟨traverseEntries_srvErr_abort kvVersion mount cur k msg post hv hk
      pre leaves hok, ?_⟩⟩
  refine ⟨"kv v" ++ kvVersion ++ " list failed at path \"", "\": " ++ msg, ?_⟩
  show "kv v" ++ kvVersion ++ " list failed at path \"" ++ pathJoinGo cur k
      ++ "\": " ++ msg
    = ("kv v" ++ kvVersion ++ " list failed at path \"") ++ pathJoinGo cur k
      ++ ("\": " ++ msg)
  exact String.append_assoc _ _ _

/-- Witness for the C8 theorem at a concrete tree level. -/
theorem C8_notFound_isolated_error_aborts_witness :
    ((traverseEntries "1" "m" ""
        (appendEntries (.cons "x" .notFound .nil) (.cons "y/" .notFound .nil))).2
      = (traverseEntries "1" "m" ""
          (appendEntries (.cons "x" .notFound .nil) .nil)).2)
    ∧ (traverseEntries "1" "m" "" (.cons "y/" .notFound (.cons "x" .notFound .nil))
        = (log404 (pathJoinGo "" "y/")
            :: (traverseEntries "1" "m" "" (.cons "x" .notFound .nil)).1,
           (traverseEntries "1" "m" "" (.cons "x" .notFound .nil)).2))
    ∧ ((traverseEntries "1" "m" "" (.cons "x" .notFound .nil)).2 = .ok ["m/x"] →
       (traverseEntries "1" "m" ""
           (appendEntries (.cons "x" .notFound .nil)
             (.cons "y/" (.srvErr "boom") .nil))).2
         = .error (listFailMsg "1" (pathJoinGo "" "y/") "boom")
       ∧ ∃ a b, listFailMsg "1" (pathJoinGo "" "y/") "boom"
           = a ++ pathJoinGo "" "y/" ++ b) :=
  C8_notFound_isolated_error_aborts "1" "m" "" "y/" "boom"
    (.cons "x" .notFound .nil) .nil (.cons "x" .notFound .nil) ["m/x"]
    (Or.inl rfl) rfl

/-! ## Copy pipeline lemmas -/

theorem copyStepV1_writes_op (inp : CopyInput) (fp rp : String) (l : List Log)
    (w : List WriteRec) (h : copyStepV1 inp fp rp = .stepCont l w) :
    ∀ x ∈ w, x.op = .v1 := by
  rcases hr : inp.readV1 rp with e | dat
  · simp only [copyStepV1, hr] at h
    cases h
    simp
  · rcases hw : inp.writeV1 rp dat with e | u
    · simp only [copyStepV1, hr, hw] at h
      cases h
      simp
    · simp only [copyStepV1, hr, hw] at h
      cases h
      intro x hx
      rw [List.mem_singleton.mp hx]

theorem copyStepV2_writes_op (inp : CopyInput) (fp rp : String) (l : List Log)
    (w : List WriteRec) (h : copyStepV2 inp fp rp = .stepCont l w) :
    ∀ x ∈ w, x.op = .v2 := by
  rcases hr : inp.readV2 rp with e | dat
  · simp only [copyStepV2, hr] at h
    cases h
  · rcases hw : inp.writeV2 rp dat with e | u
    · simp only [copyStepV2, hr, hw] at h
      cases h
      simp
    · simp only [copyStepV2, hr, hw] at h
      cases h
      intro x hx
      rw [List.mem_singleton.mp hx]

theorem copyLoop_writes_op (inp : CopyInput) (kv : String) :
    ∀ (paths : List String) (logs : List Log) (ws : List WriteRec),
      (∀ x ∈ ws, some x.op = opOfKvVersion kv) →
      ∀ x ∈ (copyLoop inp kv paths logs ws).writes, some x.op = opOfKvVersion kv := by
  intro paths
  induction paths with
  | nil =>
    intro logs ws h x hx
    rw [copyLoop] at hx
    exact h x hx
  | cons p rest ih =>
    intro logs ws h x hx
    by_cases h1 : kv = "1"
    · subst h1
      rw [copyLoop] at hx
      rcases hs : copyStepV1 inp p (trimPrefixGo p (trimSuffixGo inp.sourceMount "/" ++ "/"))
        with ⟨l, w⟩ | ⟨m, l⟩
      · simp only [hs] at hx
        refine ih (logs ++ l) (ws ++ w) ?_ x hx
        intro y hy
        rcases List.mem_append.mp hy with hy | hy
        · exact h y hy
        · rw [copyStepV1_writes_op inp p _ l w hs y hy]
          rfl
      · simp only [hs] at hx
        exact h x hx
    · by_cases h2 : kv = "2"
      · subst h2
        rw [copyLoop] at hx
        rcases hs : copyStepV2 inp p
            (trimPrefixGo p (trimSuffixGo inp.sourceMount "/" ++ "/"))
          with ⟨l, w⟩ | ⟨m, l⟩
        · simp only [hs] at hx
          refine ih (logs ++ l) (ws ++ w) ?_ x hx
          intro y hy
          rcases List.mem_append.mp hy with hy | hy
          · exact h y hy
          · rw [copyStepV2_writes_op inp p _ l w hs y hy]
            rfl
        · simp only [hs] at hx
          exact h x hx
      · rw [copyLoop] at hx
        · exact h x hx
        · exact h1
        · exact h2

/-! ## Claim C2 -/

/-- C2 counterexample: in a run whose source mount is the legacy variant
(version 1) while the target mount's own variant is versioned, the single
write issued to the target uses the v1 write operation — not the operation
matching the target mount's variant — so the cross-variant copy shape is
not supported as claimed. -/
theorem C2_counterexample :
    ¬ ∀ x ∈ (CopySecrets copyInputCrossVariant).writes,
        x.op = opOfVariant copyInputCrossVariant.targetVariant := by
  intro h
  have hw : (CopySecrets copyInputCrossVariant).writes
      = [⟨.v1, "a", some payloadKV⟩] := rfl
  have hx := h ⟨.v1, "a", some payloadKV⟩ (by rw [hw]; exact List.mem_singleton_self _)
  have hv : copyInputCrossVariant.targetVariant = .versioned := rfl
  rw [hv] at hx
  exact absurd hx (by decide)

/-- C2 amended: every write the replication pipeline issues to the target
connection uses the write operation selected by the source mount's detected
version — the target mount's own protocol variant is never consulted. -/
theorem C2_amended (inp : CopyInput) (v : String)
    (hv : GetSourceMountVersion inp.mountsListing inp.sourceMount = .ok v) :
    ∀ x ∈ (CopySecrets inp).writes, some x.op = opOfKvVersion v := by
  rw [CopySecrets]
  by_cases hcred : inp.targetAddr = "" ∨ inp.targetToken = ""
  · rw [if_pos hcred]
    intro x hx
    simp at hx
  · rw [if_neg hcred]
    simp only [hv]
    rcases hL : ListSecrets inp.mountsListing inp.sourceMount inp.tree with ⟨tlogs, tr⟩
    cases tr with
    | panicked pmsg =>
      intro x hx
      simp at hx
    | failed e =>
      intro x hx
      simp at hx
    | ok l =>
      exact copyLoop_writes_op inp v l tlogs []
        (fun y hy => absurd hy (List.not_mem_nil y))

/-- Witness for the amended C2 theorem: in the cross-variant run the issued
write carries the v1 operation selected by the source version 1. -/
theorem C2_amended_witness :
    some WriteOp.v1 = opOfKvVersion "1" :=
  C2_amended copyInputCrossVariant "1" rfl ⟨.v1, "a", some payloadKV⟩
    (by rw [show (CopySecrets copyInputCrossVariant).writes
        = [⟨.v1, "a", some payloadKV⟩] from rfl]; exact List.mem_singleton_self _)

/-! ## Claim C1 -/

/-- C1 is a code bug in the kv v2 read arm: the source logs the read error
but lacks the continue statement present in every other failure arm, so it
dereferences the nil response and panics.  At the failing input (version 2
source, read of the first discovered secret fails, the second would
succeed) the run dies with the nil-dereference panic, the failing path is
not skipped, no path is copied, and the error is a crash rather than a
logged skip. -/
theorem C1_v2_read_error_not_isolated :
    (CopySecrets copyInputV2ReadErr).exit = .panicked nilDerefMsg
    ∧ (CopySecrets copyInputV2ReadErr).writes = []
    ∧ (CopySecrets copyInputV2ReadErr).logs
      = [.logError "failed to read KV v2 secret: path=secrets/a error=permission denied"] :=
  ⟨rfl, rfl, rfl⟩

/-! ## Claim C6 -/

/-- C6 counterexample: a copy run whose source mount reports the
unrecognized version 3 is aborted fatally during listing (the process
exits), which is exactly the promotion to a setup-fatal condition the claim
rules out. -/
theorem C6_counterexample :
    (CopySecrets copyInputUnsupportedVer).exit
      = .exitFatal "failed to list secrets under source mount: unsupported kv version: 3"
    := rfl

/-- C6 amended: in the create pipeline an unrecognized mount version only
skips that one secret (the loop processes every entry of the batch), but in
the copy pipeline an unsupported detected source version aborts the whole
run fatally when listing the secrets. -/
theorem C6_amended :
    (∀ (inp : CopyInput) (v : String),
      ¬(inp.targetAddr = "" ∨ inp.targetToken = "") →
      GetSourceMountVersion inp.mountsListing inp.sourceMount = .ok v →
      v ≠ "1" → v ≠ "2" →
      (CopySecrets inp).exit
        = .exitFatal ("failed to list secrets under source mount: "
            ++ ("unsupported kv version: " ++ v)))
    ∧ (∀ (clientOk : Bool) (mounts : List (String × MountInfo))
        (writeV1 writeV2 : String → String → GoEntries → Except String Unit)
        (secrets : List (String × GoEntries)),
        ((createLoop clientOk mounts writeV1 writeV2 secrets).1).length = secrets.length)
    ∧ (∀ (mounts : List (String × MountInfo))
        (writeV1 writeV2 : String → String → GoEntries → Except String Unit)
        (P : String) (d : GoEntries) (mi : MountInfo) (rel : String),
        findMountForSecret true P mounts = .ok (mi, rel) →
        mi.Version ≠ "1" → mi.Version ≠ "2" →
        (createSecretStep true mounts writeV1 writeV2 P d).1
          = .skippedUnsupported mi.Version) := by
  refine ⟨?_, ?_, ?_⟩
  · intro inp v hcred hv h1 h2
    rw [CopySecrets, if_neg hcred]
    simp only [hv]
    have htrav : traverseNode v inp.sourceMount "" inp.tree
        = ([], .error ("unsupported kv version: " ++ v)) := by
      rw [traverseNode.eq_def, if_neg]
      rintro (h | h)
      · exact h1 h
      · exact h2 h
    have hL : ListSecrets inp.mountsListing inp.sourceMount inp.tree
        = ([], .failed ("unsupported kv version: " ++ v)) := by
      rw [ListSecrets]
      simp only [hv, htrav]
    simp only [hL]
  · intro clientOk mounts writeV1 writeV2 secrets
    induction secrets with
    | nil => rfl
    | cons s rest ih =>
      rcases s with ⟨p, d⟩
      rw [createLoop]
      rcases hs : createSecretStep clientOk mounts writeV1 writeV2 p d with ⟨o, l⟩
      rcases hrec : createLoop clientOk mounts writeV1 writeV2 rest with ⟨os, ls⟩
      rw [hrec] at ih
      simpa using ih
  · intro mounts writeV1 writeV2 P d mi rel hfind hv1 hv2
    rw [createSecretStep, hfind]
    show (match mi.Version with
      | "2" =>
        match writeV2 (trimSuffixGo mi.MountPath "/") rel d with
        | Except.error e => (CreateOutcome.v2WriteFailed e,
            [Log.logError ("failed to write KV v2 secret: path=" ++ P ++ " error=" ++ e)])
        | Except.ok _ => (CreateOutcome.wroteV2 (trimSuffixGo mi.MountPath "/") rel,
            [Log.logInfo ("KV v2 secret written: path=" ++ P)])
      | "1" =>
        match writeV1 (trimSuffixGo mi.MountPath "/") rel d with
        | Except.error e => (CreateOutcome.v1WriteFailed e,
            [Log.logError ("failed to write KV v1 secret: path=" ++ P ++ " error=" ++ e)])
        | Except.ok _ => (CreateOutcome.wroteV1 (trimSuffixGo mi.MountPath "/") rel,
            [Log.logInfo ("KV v1 secret written: path=" ++ P)])
      | v => (CreateOutcome.skippedUnsupported v,
          [Log.logError ("unsupported KV version: version=" ++ v ++ " path=" ++ P)])).1
      = CreateOutcome.skippedUnsupported mi.Version
    split
    · exact absurd (by assumption) hv2
    · exact absurd (by assumption) hv1
    · rfl

/-- Witness for the amended C6 theorem. -/
theorem C6_amended_witness :
    (CopySecrets copyInputUnsupportedVer).exit
      = .exitFatal ("failed to list secrets under source mount: "
          ++ ("unsupported kv version: " ++ "3"))
    ∧ ((createLoop true [("secrets/", ⟨"secrets/", "3"⟩)] createWriteOkFn createWriteOkFn
        [("secrets/app", payloadKV)]).1).length = 1
    ∧ (createSecretStep true [("secrets/", ⟨"secrets/", "3"⟩)] createWriteOkFn
        createWriteOkFn "secrets/app" payloadKV).1
      = .skippedUnsupported (MountInfo.mk "secrets/" "3").Version :=
  ⟨C6_amended.1 copyInputUnsupportedVer "3" (by simp [copyInputUnsupportedVer]) rfl
      (by decide) (by decide),
   C6_amended.2.1 true [("secrets/", ⟨"secrets/", "3"⟩)] createWriteOkFn createWriteOkFn
      [("secrets/app", payloadKV)],
   C6_amended.2.2 [("secrets/", ⟨"secrets/", "3"⟩)] createWriteOkFn createWriteOkFn
      "secrets/app" payloadKV ⟨"secrets/", "3"⟩ "app" rfl (by decide) (by decide)⟩

/-! ## Claim C9 -/

/-- C9 counterexample: a successful kv v1 read returning an empty but
non-nil payload is copied to the target with no warning logged at all,
refuting the claim that every empty-or-nil payload produces a warning. -/
theorem C9_counterexample :
    (CopySecrets copyInputEmptyPayload).writes
      = [⟨.v1, "a", some GoEntries.nil⟩]
    ∧ (CopySecrets copyInputEmptyPayload).logs.all (fun l => !l.isWarn) = true :=
  ⟨rfl, rfl⟩

/-- C9 amended: when the read succeeds (and the target write succeeds), the
secret is always written with exactly the payload read — never skipped —
and a warning is logged precisely when the payload is nil; an empty
non-nil payload is written without a warning. -/
theorem C9_nil_warn_empty_written (inp : CopyInput) (fullPath relativePath : String)
    (dat : Option GoEntries) :
    (inp.readV1 relativePath = .ok dat → inp.writeV1 relativePath dat = .ok () →
      ∃ logs, copyStepV1 inp fullPath relativePath
          = .stepCont logs [⟨.v1, relativePath, dat⟩]
        ∧ (logs.any Log.isWarn = true ↔ dat = none))
    ∧ (inp.readV2 relativePath = .ok dat → inp.writeV2 relativePath dat = .ok () →
      ∃ logs, copyStepV2 inp fullPath relativePath
          = .stepCont logs [⟨.v2, relativePath, dat⟩]
        ∧ (logs.any Log.isWarn = true ↔ dat = none)) := by
  constructor
  · intro hr hw
    have hstep : copyStepV1 inp fullPath relativePath
        = .stepCont ((if dat.isNone then
              [.logWarn ("no data found at KV v1 secret: path=" ++ fullPath)] else [])
            ++ [.logInfo ("successfully copied KV v1 secret: path=" ++ relativePath)])
          [⟨.v1, relativePath, dat⟩] := by
      simp only [copyStepV1, hr, hw]
    refine ⟨_, hstep, ?_⟩
    cases dat with
    | none => simp [Log.isWarn]
    | some d => simp [Log.isWarn]
  · intro hr hw
    have hstep : copyStepV2 inp fullPath relativePath
        = .stepCont ((if dat.isNone then
              [.logWarn ("no data found at KV v2 secret: path=" ++ fullPath)] else [])
            ++ [.logInfo ("copied KV v2 secret: path=" ++ relativePath)])
          [⟨.v2, relativePath, dat⟩] := by
      simp only [copyStepV2, hr, hw]
    refine ⟨_, hstep, ?_⟩
    cases dat with
    | none => simp [Log.isWarn]
    | some d => simp [Log.isWarn]

/-- Witness for the amended C9 theorem: the nil-payload case logs a warning
and still writes, at a concrete run. -/
theorem C9_nil_warn_empty_written_witness :
    ∃ logs, copyStepV1
        { copyInputEmptyPayload with readV1 := fun _ => .ok none }
        "secrets/a" "a"
        = .stepCont logs [⟨.v1, "a", (none : Option GoEntries)⟩]
      ∧ (logs.any Log.isWarn = true ↔ (none : Option GoEntries) = none) :=
  (C9_nil_warn_empty_written
    { copyInputEmptyPayload with readV1 := fun _ => .ok none }
    "secrets/a" "a" none).1 rfl rfl

end Vaultx
